import Mathlib

/-!
Verification of the QuerySenseAI query agent (`agent.py`, `app.py`).

The pipeline's string-rewriting helpers are embedded shallowly: Python strings
become `List Char` (ASCII semantics for case mapping, word characters and
whitespace, which is what the SQL texts handled by the agent consist of), and
each concrete Python regular expression is translated into an explicit
deterministic scanner realising exactly the backtracking behaviour of that
pattern.  The orchestration method `ask` is embedded as a total function over
oracles for the two external capabilities (LLM completion and database
execution), returning the response dictionary together with the export-job
registration it performs.
-/

/-! ## Character classes (Python `re` semantics, ASCII fragment) -/

/-- Python regex `\w` on ASCII text: letters, digits and underscore. -/
def isWordChar (c : Char) : Bool := c.isAlphanum || c = '_'

/-- Python regex `\s` on ASCII text: space, tab, newline, CR, VT, FF. -/
def isPySpace (c : Char) : Bool :=
  c = ' ' || c = '\t' || c = '\n' || c = '\r' || c = Char.ofNat 11 || c = Char.ofNat 12

/-- Case-insensitive character comparison (`re.IGNORECASE`, ASCII fragment). -/
def eqCI (a b : Char) : Bool := a.toLower = b.toLower

/-! ## Primitive pattern eaters

Each eater consumes a piece of the input and returns the remainder (and, where
needed, the consumed text).  They are the building blocks into which the
source's regular expressions are decompiled. -/

/-- Consume the literal `p` case-insensitively; return the consumed original
text and the remainder. -/
def eatCI : List Char → List Char → Option (List Char × List Char)
  | [], s => some ([], s)
  | _ :: _, [] => none
  | p :: ps, c :: cs =>
    if eqCI p c then
      match eatCI ps cs with
      | some (w, r) => some (c :: w, r)
      | none => none
    else none

/-- Consume the literal `p` case-sensitively; return the remainder. -/
def eatCS : List Char → List Char → Option (List Char)
  | [], s => some s
  | _ :: _, [] => none
  | p :: ps, c :: cs => if p = c then eatCS ps cs else none

/-- Consume exactly one given character. -/
def eatChar (c : Char) : List Char → Option (List Char)
  | x :: xs => if x = c then some xs else none
  | [] => none

/-- Regex `\s+` followed by a non-whitespace continuation: the greedy run is
forced to be maximal, so consuming the whole run is exact. -/
def eatWs1 : List Char → Option (List Char)
  | c :: cs => if isPySpace c then some (cs.dropWhile isPySpace) else none
  | [] => none

/-- Optionally consume one given character (regex `x?` whose continuation can
never begin with `x`, hence no backtracking is needed). -/
def dropOpt (c : Char) : List Char → List Char
  | x :: xs => if x = c then xs else x :: xs
  | [] => []

theorem eatCI_length {p s w r : List Char} (h : eatCI p s = some (w, r)) :
    r.length + p.length = s.length := by
  induction p generalizing s w r with
  | nil => cases s <;> simp [eatCI] at h <;> simp [h.2]
  | cons c cs ih =>
    cases s with
    | nil => simp [eatCI] at h
    | cons d ds =>
      simp only [eatCI] at h
      split at h
      · cases heq : eatCI cs ds with
        | none => rw [heq] at h; exact absurd h (by simp)
        | some pr =>
          rw [heq] at h
          obtain ⟨w', r'⟩ := pr
          simp at h
          obtain ⟨-, rfl⟩ := h
          have := ih heq
          simp [List.length_cons, ← this]
          omega
      · exact absurd h (by simp)

theorem eatCS_length {p s r : List Char} (h : eatCS p s = some r) :
    r.length + p.length = s.length := by
  induction p generalizing s r with
  | nil => cases s <;> simp_all [eatCS]
  | cons c cs ih =>
    cases s with
    | nil => simp [eatCS] at h
    | cons d ds =>
      simp only [eatCS] at h
      split at h
      · have := ih h; simp [List.length_cons, ← this]; omega
      · exact absurd h (by simp)

theorem eatChar_length {c : Char} {s r : List Char} (h : eatChar c s = some r) :
    r.length + 1 = s.length := by
  cases s with
  | nil => simp [eatChar] at h
  | cons d ds =>
    simp only [eatChar] at h
    split at h
    · simp at h; simp [← h]
    · exact absurd h (by simp)

theorem dropWhile_length_le (p : Char → Bool) (s : List Char) :
    (s.dropWhile p).length ≤ s.length := by
  induction s with
  | nil => simp
  | cons c cs ih =>
    simp only [List.dropWhile]
    split
    · exact Nat.le_succ_of_le ih
    · simp

theorem takeWhile_length_le (p : Char → Bool) (s : List Char) :
    (s.takeWhile p).length ≤ s.length := by
  induction s with
  | nil => simp
  | cons c cs ih =>
    simp only [List.takeWhile]
    split
    · simpa using ih
    · simp

theorem eatWs1_length {s r : List Char} (h : eatWs1 s = some r) :
    r.length < s.length := by
  cases s with
  | nil => simp [eatWs1] at h
  | cons c cs =>
    simp only [eatWs1] at h
    split at h
    · simp at h
      rw [← h]
      exact Nat.lt_succ_of_le (dropWhile_length_le _ _)
    · exact absurd h (by simp)

theorem dropOpt_length_le (c : Char) (s : List Char) :
    (dropOpt c s).length ≤ s.length := by
  cases s with
  | nil => simp [dropOpt]
  | cons d ds => simp only [dropOpt]; split <;> simp

/-! ## A generic model of Python `re.sub` (global, non-overlapping, left-to-right)

`m` is a matcher that, given a suffix of the text, either matches at its first
position — returning the rendered replacement and the unconsumed remainder —
or fails.  `re.sub` scans positions left to right, replacing each
non-overlapping match. -/

/-- A matcher usable with the scanner: a successful match always consumes at
least one character. -/
def Consuming (m : List Char → Option (List Char × List Char)) : Prop :=
  ∀ s r rest, m s = some (r, rest) → rest.length < s.length

/-- Fuelled scanner realising global `re.sub`. -/
def subScanF (m : List Char → Option (List Char × List Char)) : Nat → List Char → List Char
  | _, [] => []
  | 0, s => s
  | fuel + 1, c :: rest =>
    match m (c :: rest) with
    | some (r, rest') => r ++ subScanF m fuel rest'
    | none => c :: subScanF m fuel rest

/-- Global `re.sub` with matcher `m` over `s`. -/
def pySubAll (m : List Char → Option (List Char × List Char)) (s : List Char) : List Char :=
  subScanF m s.length s

theorem subScanF_fuel_eq (m : List Char → Option (List Char × List Char))
    (hm : Consuming m) :
    ∀ n (s : List Char) (f₁ f₂ : Nat), s.length ≤ n → s.length ≤ f₁ → s.length ≤ f₂ →
      subScanF m f₁ s = subScanF m f₂ s := by
  intro n
  induction n with
  | zero =>
    intro s f₁ f₂ hn _ _
    have : s = [] := List.eq_nil_of_length_eq_zero (Nat.le_zero.mp hn)
    subst this
    cases f₁ <;> cases f₂ <;> rfl
  | succ n ih =>
    intro s f₁ f₂ hn h₁ h₂
    cases s with
    | nil => cases f₁ <;> cases f₂ <;> rfl
    | cons c rest =>
      simp only [List.length_cons] at hn h₁ h₂
      obtain ⟨g₁, rfl⟩ : ∃ g, f₁ = g + 1 := ⟨f₁ - 1, by omega⟩
      obtain ⟨g₂, rfl⟩ : ∃ g, f₂ = g + 1 := ⟨f₂ - 1, by omega⟩
      simp only [subScanF]
      cases hmatch : m (c :: rest) with
      | some pr =>
        obtain ⟨r, rest'⟩ := pr
        have hlt := hm _ _ _ hmatch
        simp only [List.length_cons] at hlt
        dsimp only
        rw [ih rest' g₁ g₂ (by omega) (by omega) (by omega)]
      | none =>
        dsimp only
        rw [ih rest g₁ g₂ (by omega) (by omega) (by omega)]

/-- Scanner equation: no match at the current position copies one character. -/
theorem pySubAll_cons_none {m : List Char → Option (List Char × List Char)}
    {c : Char} {rest : List Char} (h : m (c :: rest) = none) :
    pySubAll m (c :: rest) = c :: pySubAll m rest := by
  unfold pySubAll
  simp only [List.length_cons, subScanF, h]

/-- Scanner equation: a match at the current position substitutes the rendered
replacement and resumes after the consumed text. -/
theorem pySubAll_match {m : List Char → Option (List Char × List Char)}
    (hm : Consuming m) {s r rest : List Char} (h : m s = some (r, rest)) :
    pySubAll m s = r ++ pySubAll m rest := by
  cases s with
  | nil =>
    have := hm _ _ _ h
    simp at this
  | cons c cs =>
    have hlt := hm _ _ _ h
    unfold pySubAll
    simp only [List.length_cons, subScanF, h]
    congr 1
    exact subScanF_fuel_eq m hm (cs.length) rest cs.length rest.length
      (by simp at hlt; omega) (by simp at hlt; omega) (le_refl _)

theorem pySubAll_nil (m : List Char → Option (List Char × List Char)) :
    pySubAll m [] = [] := rfl

/-! ## Locating word-bounded keywords (regex `\bKW\b`, `re.IGNORECASE`)

`splitWordCI kw prev s` finds the first occurrence of `kw` in `s` (scanning
left to right) that is word-bounded on both sides, `prev` being the character
immediately preceding `s` (if any).  On success it returns the text before the
occurrence, the occurrence as written in `s`, and the text after it.  All
keywords used by the source begin and end with word characters, for which `\b`
demands a non-word character (or the text edge) adjacent to the occurrence. -/

/-- Word boundary against the preceding character. -/
def prevBoundary : Option Char → Bool
  | none => true
  | some c => !isWordChar c

/-- Word boundary against the following text. -/
def headBoundary : List Char → Bool
  | [] => true
  | c :: _ => !isWordChar c

def splitWordCI (kw : List Char) : Option Char → List Char → Option (List Char × List Char × List Char)
  | _, [] => none
  | prev, c :: cs =>
    match (if prevBoundary prev then eatCI kw (c :: cs) else none) with
    | some (w, r) =>
      if headBoundary r then some ([], w, r)
      else
        match splitWordCI kw (some c) cs with
        | some (p, w', r') => some (c :: p, w', r')
        | none => none
    | none =>
      match splitWordCI kw (some c) cs with
      | some (p, w', r') => some (c :: p, w', r')
      | none => none

theorem eatCI_append {p s w r : List Char} (h : eatCI p s = some (w, r)) : w ++ r = s := by
  induction p generalizing s w r with
  | nil => cases s <;> simp [eatCI] at h <;> simp [h]
  | cons a as ihp =>
    cases s with
    | nil => simp [eatCI] at h
    | cons b bs =>
      simp only [eatCI] at h
      split at h
      · cases hrec : eatCI as bs with
        | none => rw [hrec] at h; exact absurd h (by simp)
        | some pr2 =>
          obtain ⟨w₁, r₁⟩ := pr2
          rw [hrec] at h
          simp at h
          obtain ⟨rfl, rfl⟩ := h
          simp [ihp hrec]
      · exact absurd h (by simp)

theorem splitWordCI_append {kw : List Char} {prev : Option Char} {s p w r : List Char}
    (h : splitWordCI kw prev s = some (p, w, r)) : p ++ w ++ r = s := by
  induction s generalizing prev p w r with
  | nil => simp [splitWordCI] at h
  | cons c cs ih =>
    simp only [splitWordCI] at h
    split at h
    · next w' r' heat =>
      have heat' : eatCI kw (c :: cs) = some (w', r') := by
        split at heat
        · exact heat
        · exact absurd heat (by simp)
      split at h
      · simp at h
        obtain ⟨rfl, rfl, rfl⟩ := h
        simpa using eatCI_append heat'
      · cases hrec : splitWordCI kw (some c) cs with
        | none => rw [hrec] at h; exact absurd h (by simp)
        | some tr =>
          obtain ⟨p', w'', r''⟩ := tr
          rw [hrec] at h
          simp at h
          obtain ⟨rfl, rfl, rfl⟩ := h
          simpa using ih hrec
    · cases hrec : splitWordCI kw (some c) cs with
      | none => rw [hrec] at h; exact absurd h (by simp)
      | some tr =>
        obtain ⟨p', w'', r''⟩ := tr
        rw [hrec] at h
        simp at h
        obtain ⟨rfl, rfl, rfl⟩ := h
        simpa using ih hrec

/-! ## The SQL Normalizer: `_fix_product_column_in_sql` (agent.py, lines 160-242)

The method first tests `re.search(r'\bWHERE\b', sql, re.IGNORECASE)` and
returns the query unchanged when it fails.  Otherwise it applies, once, the
pattern `(\bWHERE\b)(.*?)((?=\bGROUP BY\b|\bORDER BY\b|\bHAVING\b|$))` with
`re.IGNORECASE | re.DOTALL`, and inside the captured WHERE content substitutes
every occurrence of `(?:\[?Product\]?|\[?Product_Name\]?)\s+LIKE\s+'%([^']+)%'`
by `[Product] LIKE '%<normalised value>%'`, the value normalisation being
`value.replace(' ', '').upper()`. -/

/-- The literal value normalisation `product_value.replace(' ', '').upper()`. -/
def normVal (v : List Char) : List Char := (v.filter (fun c => c ≠ ' ')).map Char.toUpper

/-- The rendered replacement of one product predicate. -/
def canonProd (v : List Char) : List Char :=
  "[Product] LIKE '%".toList ++ v ++ "%'".toList

/-- The regex tail `([^']+)%'`: the greedy non-quote run must end in `%` and be
followed by the closing quote; the captured group is the run without that `%`.
(The only backtracking position that can satisfy `%'` is one character before
the run's end, because every shorter candidate would place the quote inside the
non-quote run.) -/
def eatLitRun (s : List Char) : Option (List Char × List Char) :=
  let r := s.takeWhile (fun c => c ≠ '\'')
  if 2 ≤ r.length ∧ r.getLast? = some '%' then
    match s.drop r.length with
    | '\'' :: rest => some (r.dropLast, rest)
    | _ => none
  else none

/-- The part of the product pattern after the column word: `\]?\s+LIKE\s+'%`,
then the literal tail.  An unconsumed `]` can never satisfy `\s+`, so the
optional bracket is consumed whenever present. -/
def matchProdTail (s : List Char) : Option (List Char × List Char) :=
  match eatWs1 (dropOpt ']' s) with
  | none => none
  | some s2 =>
    match eatCI "LIKE".toList s2 with
    | none => none
    | some (_, s3) =>
      match eatWs1 s3 with
      | none => none
      | some s4 =>
        match eatChar '\'' s4 with
        | none => none
        | some s5 =>
          match eatChar '%' s5 with
          | none => none
          | some s6 => eatLitRun s6

/-- One attempted match of `(?:\[?Product\]?|\[?Product_Name\]?)\s+LIKE\s+'%([^']+)%'`
at the head of `s`, returning the rendered replacement and the remainder.  The
first alternative is tried in full before the second, exactly as Python's
alternation does; both begin with `\[?Product`, and a `[` that is present must
be consumed since `P` can never match it. -/
def matchProd (s : List Char) : Option (List Char × List Char) :=
  match eatCI "Product".toList (dropOpt '[' s) with
  | none => none
  | some (_, r) =>
    match matchProdTail r with
    | some (g, rest) => some (canonProd (normVal g), rest)
    | none =>
      match eatCI "_Name".toList r with
      | none => none
      | some (_, r2) =>
        match matchProdTail r2 with
        | some (g, rest) => some (canonProd (normVal g), rest)
        | none => none

theorem eatLitRun_length {s g rest : List Char} (h : eatLitRun s = some (g, rest)) :
    rest.length < s.length := by
  simp only [eatLitRun] at h
  split at h
  · split at h
    · next rest' hdrop =>
      simp at h
      obtain ⟨-, rfl⟩ := h
      have hlen : (s.drop (s.takeWhile (fun c => c ≠ '\'')).length).length
          = s.length - (s.takeWhile (fun c => c ≠ '\'')).length := List.length_drop _ _
      rw [hdrop] at hlen
      have hle : (s.takeWhile (fun c => c ≠ '\'')).length ≤ s.length :=
        takeWhile_length_le _ _
      simp at hlen
      omega
    · exact absurd h (by simp)
  · exact absurd h (by simp)

theorem matchProdTail_length {s g rest : List Char} (h : matchProdTail s = some (g, rest)) :
    rest.length < s.length := by
  unfold matchProdTail at h
  split at h
  · exact absurd h (by simp)
  · next s2 hws =>
    split at h
    · exact absurd h (by simp)
    · next w3 s3 hlike =>
      split at h
      · exact absurd h (by simp)
      · next s4 hws2 =>
        split at h
        · exact absurd h (by simp)
        · next s5 hq =>
          split at h
          · exact absurd h (by simp)
          · next s6 hp =>
            have h1 := eatWs1_length hws
            have h2 := eatCI_length hlike
            have h3 := eatWs1_length hws2
            have h4 := eatChar_length hq
            have h5 := eatChar_length hp
            have h6 := eatLitRun_length h
            have h0 := dropOpt_length_le ']' s
            omega

theorem matchProd_consuming : Consuming matchProd := by
  intro s r rest h
  unfold matchProd at h
  split at h
  · exact absurd h (by simp)
  · next w1 r1 hprod =>
    have hp := eatCI_length hprod
    have h0 := dropOpt_length_le '[' s
    split at h
    · next g rest' htail =>
      simp at h
      obtain ⟨-, rfl⟩ := h
      have := matchProdTail_length htail
      simp at hp
      omega
    · split at h
      · exact absurd h (by simp)
      · next w2 r2 hname =>
        have hn := eatCI_length hname
        split at h
        · next g rest' htail =>
          simp at h
          obtain ⟨-, rfl⟩ := h
          have := matchProdTail_length htail
          simp at hp hn
          omega
        · exact absurd h (by simp)

/-- The inner substitution applied to the WHERE-clause content. -/
def innerProdSub (s : List Char) : List Char := pySubAll matchProd s

def groupByKw : List Char := "GROUP BY".toList
def orderByKw : List Char := "ORDER BY".toList
def havingKw : List Char := "HAVING".toList
def whereKw : List Char := "WHERE".toList

/-- Index of the first word-bounded occurrence of `kw`. -/
def firstWordPos (kw : List Char) (prev : Option Char) (s : List Char) : Option Nat :=
  match splitWordCI kw prev s with
  | some (p, _, _) => some p.length
  | none => none

/-- Positions where non-multiline `$` can match: the end of the text, and just
before a trailing newline; the lazy quantifier stops at the smaller one. -/
def dollarPos (s : List Char) : Nat :=
  if s.getLast? = some '\n' then s.length - 1 else s.length

/-- Stop position of the lazy WHERE content: the first word-bounded
`GROUP BY` / `ORDER BY` / `HAVING`, or where `$` matches. -/
def termStop (prev : Option Char) (s : List Char) : Nat :=
  let d := dollarPos s
  min (min ((firstWordPos groupByKw prev s).getD d) ((firstWordPos orderByKw prev s).getD d))
      (min ((firstWordPos havingKw prev s).getD d) d)

/-- `_fix_product_column_in_sql` (agent.py, lines 160-242). -/
def fix_product_column_in_sql (q : String) : String :=
  match splitWordCI whereKw none q.toList with
  | none => q
  | some (pre, w5, post) =>
    let stop := termStop w5.getLast? post
    String.mk (pre ++ w5 ++ innerProdSub (post.take stop) ++ post.drop stop)

/-! ## Python string helpers -/

/-- Python `str.strip()` (ASCII whitespace). -/
def pyStrip (s : List Char) : List Char :=
  ((s.dropWhile isPySpace).reverse.dropWhile isPySpace).reverse

/-- Python `str.lower()` (ASCII fragment). -/
def pyLower (s : List Char) : List Char := s.map Char.toLower

/-- Python `str.upper()` (ASCII fragment). -/
def pyUpper (s : List Char) : List Char := s.map Char.toUpper

/-- Python `pat in s` substring test. -/
def hasSub (pat : List Char) : List Char → Bool
  | [] => decide (pat = [])
  | c :: cs => (eatCS pat (c :: cs)).isSome || hasSub pat cs

/-! ## The Summary-Query Deriver: `_generate_summary_query` (agent.py, lines 247-381) -/

/-- The date rewrite `optimize_date_sargable` (lines 290-304): Python pattern
`YEAR\(([\w\.]+)\)\s*([>=]+)\s*((?:YEAR\(GETDATE\(\)\)\s*[-+]\s*\d+)|(?:YEAR\(GETDATE\(\)\))|(?:\d{4}))`,
`re.IGNORECASE`, substituted globally by `f" {col} {op} DATEFROMPARTS({year_func}, 1, 1) "`.
This helper matches the third group, trying the alternatives in the pattern's
order: a relative-year expression, the bare `YEAR(GETDATE())`, or a four-digit
literal. -/
def matchYearExpr (s : List Char) : Option (List Char × List Char) :=
  match eatCI "YEAR(GETDATE())".toList s with
  | some (w, r) =>
    let ws1 := r.takeWhile isPySpace
    match r.drop ws1.length with
    | c :: r2 =>
      if c = '-' || c = '+' then
        let ws2 := r2.takeWhile isPySpace
        let r3 := r2.drop ws2.length
        let ds := r3.takeWhile Char.isDigit
        if ds.length = 0 then some (w, r)
        else some (w ++ ws1 ++ [c] ++ ws2 ++ ds, r3.drop ds.length)
      else some (w, r)
    | [] => some (w, r)
  | none =>
    let ds := s.takeWhile Char.isDigit
    if 4 ≤ ds.length then some (s.take 4, s.drop 4) else none

/-- One attempted match of the sargable-date pattern at the head of `s`,
returning the rendered replacement and the remainder.  The operator class in
the source pattern is `[>=]+`: only runs of `>` and `=` characters. -/
def matchSarg (s : List Char) : Option (List Char × List Char) :=
  match eatCI "YEAR(".toList s with
  | none => none
  | some (_, s1) =>
    let col := s1.takeWhile (fun c => isWordChar c || c = '.')
    if col.length = 0 then none else
    match eatChar ')' (s1.drop col.length) with
    | none => none
    | some s2 =>
      let s3 := s2.dropWhile isPySpace
      let op := s3.takeWhile (fun c => c = '>' || c = '=')
      if op.length = 0 then none else
      let s4 := (s3.drop op.length).dropWhile isPySpace
      match matchYearExpr s4 with
      | none => none
      | some (yf, rest) =>
        some (" ".toList ++ col ++ " ".toList ++ op ++ " DATEFROMPARTS(".toList ++ yf
                ++ ", 1, 1) ".toList, rest)

theorem matchYearExpr_length {s yf rest : List Char} (h : matchYearExpr s = some (yf, rest)) :
    rest.length ≤ s.length := by
  simp only [matchYearExpr] at h
  split at h
  · next w r hy =>
    have h1 := eatCI_length hy
    split at h
    · next c r2 heq =>
      have hd : (List.drop (List.takeWhile isPySpace r).length r).length ≤ r.length := by
        simp only [List.length_drop]; omega
      rw [heq] at hd
      simp only [List.length_cons] at hd
      split at h
      · split at h
        · simp at h
          obtain ⟨-, rfl⟩ := h
          omega
        · simp at h
          obtain ⟨-, rfl⟩ := h
          simp only [List.length_drop]
          omega
      · simp at h
        obtain ⟨-, rfl⟩ := h
        omega
    · simp at h
      obtain ⟨-, rfl⟩ := h
      omega
  · split at h
    · simp at h
      obtain ⟨-, rfl⟩ := h
      simp only [List.length_drop]
      omega
    · exact absurd h (by simp)

theorem matchSarg_consuming : Consuming matchSarg := by
  intro s r rest h
  simp only [matchSarg] at h
  split at h
  · exact absurd h (by simp)
  · next w1 s1 hy =>
    have h1 := eatCI_length hy
    split at h
    · exact absurd h (by simp)
    · split at h
      · exact absurd h (by simp)
      · next s2 hc =>
        have h2 := eatChar_length hc
        have hdl : (List.drop (List.takeWhile (fun c => isWordChar c || c = '.') s1).length
            s1).length ≤ s1.length := by
          simp only [List.length_drop]; omega
        split at h
        · exact absurd h (by simp)
        · split at h
          · exact absurd h (by simp)
          · next yf rest' hyear =>
            simp at h
            obtain ⟨-, rfl⟩ := h
            have h3 := matchYearExpr_length hyear
            have h4 : (s2.dropWhile isPySpace).length ≤ s2.length := dropWhile_length_le _ _
            have h5 : ((List.dropWhile isPySpace s2).drop
                ((List.dropWhile isPySpace s2).takeWhile fun c => c = '>' || c = '=').length).length
                ≤ (List.dropWhile isPySpace s2).length := by
              simp only [List.length_drop]; omega
            have h6 := dropWhile_length_le isPySpace ((List.dropWhile isPySpace s2).drop
                ((List.dropWhile isPySpace s2).takeWhile fun c => c = '>' || c = '=').length)
            simp at h1
            omega

/-- CTE handling (lines 260-264): for `\bWITH\b.*?\)\s*(SELECT)` with
`re.IGNORECASE | re.DOTALL`, scan the text after a word-bounded `WITH` for a
`)` whose following whitespace run is followed by `SELECT`; the search restarts
at the next position when no closing parenthesis works.  On success the text
from the `SELECT` onwards (`match.start(1)`) is returned. -/
def cteCloseScan : List Char → Option (List Char)
  | [] => none
  | c :: cs =>
    if c = ')' then
      let r := cs.dropWhile isPySpace
      if (eatCI "SELECT".toList r).isSome then some r else cteCloseScan cs
    else cteCloseScan cs

def cteSelTail : Option Char → List Char → Option (List Char)
  | _, [] => none
  | prev, c :: cs =>
    match (if prevBoundary prev then eatCI "WITH".toList (c :: cs) else none) with
    | some (_, r) =>
      if headBoundary r then
        match cteCloseScan r with
        | some tail => some tail
        | none => cteSelTail (some c) cs
      else cteSelTail (some c) cs
    | none => cteSelTail (some c) cs

/-- The optional alias group `(?:(?:\s+as\s+|\s+)(\w+))?` of the table regex
(line 267): after the shared maximal whitespace run, a case-insensitive `as`
followed by more whitespace and a word wins; otherwise the first word itself is
the alias. -/
def aliasWordAfter (r : List Char) : Option (List Char) :=
  match eatWs1 r with
  | none => none
  | some r1 =>
    let fallback : Option (List Char) :=
      let w1 := r1.takeWhile isWordChar
      if w1.length = 0 then none else some w1
    match eatCI "as".toList r1 with
    | some (_, r2) =>
      match eatWs1 r2 with
      | some r3 =>
        let w := r3.takeWhile isWordChar
        if w.length = 0 then fallback else some w
      | none => fallback
    | none => fallback

/-- The table extraction `FROM\s+([\w\.]+)(?:(?:\s+as\s+|\s+)(\w+))?` with
`re.IGNORECASE` (line 267): the first `FROM` occurrence (no word boundary in
the pattern) followed by whitespace and a word-or-dot run. -/
def findFromSplit : List Char → Option (List Char × Option (List Char))
  | [] => none
  | c :: cs =>
    match eatCI "FROM".toList (c :: cs) with
    | some (_, r) =>
      match eatWs1 r with
      | some r1 =>
        let tbl := r1.takeWhile (fun ch => isWordChar ch || ch = '.')
        if tbl.length = 0 then findFromSplit cs
        else some (tbl, aliasWordAfter (r1.drop tbl.length))
      | none => findFromSplit cs
    | none => findFromSplit cs

/-- Terminator head of the WHERE-clause regex `(?:GROUP BY|ORDER BY|UNION|$)`
(line 282): plain case-insensitive literals, no word boundaries. -/
def isTermHead (s : List Char) : Bool :=
  (eatCI "GROUP BY".toList s).isSome || (eatCI "ORDER BY".toList s).isSome
    || (eatCI "UNION".toList s).isSome

def termScanPos (nlPos : Option Nat) : Nat → List Char → Nat
  | i, [] => i
  | i, c :: cs =>
    if nlPos = some i then i
    else if isTermHead (c :: cs) then i
    else termScanPos nlPos (i + 1) cs

/-- Smallest position `≥ k` in `s` at which the terminator alternation of the
WHERE-clause regex can match (including the `$` positions). -/
def stopFrom (s : List Char) (k : Nat) : Nat :=
  termScanPos (if s.getLast? = some '\n' then some (s.length - 1) else none) k (s.drop k)

/-- The WHERE-clause extraction `(WHERE\s+.+?)(?:GROUP BY|ORDER BY|UNION|$)`
with `re.IGNORECASE | re.DOTALL` (line 282): at the first workable `WHERE`
occurrence, the greedy `\s+` takes the largest feasible run, then the lazy
`.+?` (at least one character) stops at the first terminator position.
Feasibility of a whitespace length only depends on one character being left
for `.+?`, since `$` at the end of the text is always an available
terminator. -/
def findWhereAt (s : List Char) : Nat → List Char → Option (List Char)
  | _, [] => none
  | i, c :: cs =>
    if (eatCI "WHERE".toList (c :: cs)).isSome then
      let wsMax := (((c :: cs).drop 5).takeWhile isPySpace).length
      let base := i + 5
      if wsMax = 0 || s.length < base + 2 then findWhereAt s (i + 1) cs
      else
        let wsLen := min wsMax (s.length - base - 1)
        let stop := stopFrom s (base + wsLen + 1)
        some ((s.take stop).drop i)
    else findWhereAt s (i + 1) cs

def findWhereClause (s : List Char) : Option (List Char) := findWhereAt s 0 s

/-- Alias-qualifier removal (lines 310-313):
`re.sub(r'\b' + re.escape(alias) + r'\.', '', where_clause, re.IGNORECASE)`.
The scan tracks the preceding character of the original text for the `\b`. -/
def stripAliasF (al : List Char) : Nat → Option Char → List Char → List Char
  | 0, _, s => s
  | _ + 1, _, [] => []
  | f + 1, prev, c :: cs =>
    match (if prevBoundary prev then
             match eatCI al (c :: cs) with
             | some (_, r) => eatChar '.' r
             | none => none
           else none) with
    | some r2 => stripAliasF al f (some '.') r2
    | none => c :: stripAliasF al f (some c) cs

def stripAlias (al s : List Char) : List Char := stripAliasF al s.length none s

/-- The bracketed-or-plain column capture `(\[?[\w\/\s]+\]?)` of the GROUP BY
regex (line 325). -/
def grpAt (x : List Char) : Option (List Char) :=
  let x1 := dropOpt '[' x
  let run := x1.takeWhile (fun c => isWordChar c || c = '/' || isPySpace c)
  if run.length = 0 then none
  else
    let openB : List Char := if x.head? = some '[' then ['['] else []
    let closeB : List Char := if (x1.drop run.length).head? = some ']' then [']'] else []
    some (openB ++ run ++ closeB)

/-- Dot positions usable by the optional qualifier `(?:[\w\.]+\.)?`: a dot at
index `k ≥ 1` of the greedy word-or-dot run, tried longest first. -/
def dotsDesc (a : List Char) : List Nat :=
  (((List.range a.length).filter (fun i => 1 ≤ i && a.get? i = some '.')).reverse)

def qualGrpGo (r : List Char) : List Nat → Option (List Char)
  | [] => grpAt r
  | k :: ks =>
    match grpAt (r.drop (k + 1)) with
    | some g => some g
    | none => qualGrpGo r ks

def tryQualGrp (r : List Char) : Option (List Char) :=
  qualGrpGo r (dotsDesc (r.takeWhile (fun c => isWordChar c || c = '.')))

/-- Backtracking over the length of the greedy `\s+`, longest first. -/
def gbWs : Nat → List Char → Option (List Char)
  | 0, _ => none
  | wsLen + 1, r =>
    match tryQualGrp (r.drop (wsLen + 1)) with
    | some g => some g
    | none => gbWs wsLen r

/-- The GROUP BY column search
`GROUP BY\s+(?:[\w\.]+\.)?(\[?[\w\/\s]+\]?)` with `re.IGNORECASE` (line 325). -/
def findGroupByCol : List Char → Option (List Char)
  | [] => none
  | c :: cs =>
    match eatCI "GROUP BY".toList (c :: cs) with
    | some (_, r) =>
      match gbWs (r.takeWhile isPySpace).length r with
      | some g => some g
      | none => findGroupByCol cs
    | none => findGroupByCol cs

/-- The V2 summary query template (lines 347-377), exactly as the source
f-string renders it (before the final `.strip()`). -/
def summaryTemplate (nameCol entity table wc dateCol : String) : String :=
  "\n        WITH TopEntity AS (\n            SELECT TOP 1\n                "
    ++ nameCol ++ ",\n                SUM(Total_Value_INR) AS TopEntityValue\n            FROM "
    ++ table ++ "\n            " ++ wc ++ "\n            GROUP BY " ++ nameCol
    ++ "\n            ORDER BY TopEntityValue DESC\n        ),\n        Aggregates AS (\n            SELECT\n                COUNT(*) as TotalRecords,\n                COUNT(DISTINCT "
    ++ nameCol ++ ") as Total" ++ entity
    ++ "s,\n                SUM(Total_Value_INR) as TotalValue_INR,\n                SUM(QUANTITY_KG) as TotalQuantity_KG,\n                SUM(Total_Value_INR) / NULLIF(SUM(QUANTITY_KG), 0) as WeightedAvgPrice_INR,\n                MAX(Total_Value_INR) as MaxShipmentValue,\n                MIN("
    ++ dateCol ++ ") as EarliestDate,\n                MAX(" ++ dateCol
    ++ ") as LatestDate,\n                COUNT(DISTINCT CAST(" ++ dateCol
    ++ " AS DATE)) as UniqueDates\n            FROM " ++ table ++ "\n            " ++ wc
    ++ "\n        )\n        SELECT\n            a.*, -- All aggregates\n            t."
    ++ nameCol ++ " as Top" ++ entity ++ ",\n            t.TopEntityValue as Top" ++ entity
    ++ "Value\n        FROM Aggregates a\n        CROSS JOIN TopEntity t\n        "

/-- `_generate_summary_query` (agent.py, lines 247-381).  Returns `none`
exactly when the table regex finds no `FROM` clause in the searched block. -/
def generate_summary_query (original_query : String) : Option String :=
  let s := original_query.toList
  let qts := (cteSelTail none s).getD s
  match findFromSplit qts with
  | none => none
  | some (table, alias0) =>
    let table_alias : Option (List Char) :=
      match alias0 with
      | some a =>
        if (["WHERE", "GROUP", "ORDER", "HAVING"].map String.toList).contains (pyUpper a)
        then none else some a
      | none => none
    let wc0 : List Char :=
      match findWhereClause qts with
      | some g => pyStrip g
      | none => []
    let wc1 : List Char := if wc0.getLast? = some ';' then pyStrip wc0.dropLast else wc0
    let wc2 : List Char :=
      if wc1.isEmpty then wc1
      else
        let optimized := pySubAll matchSarg wc1
        match table_alias with
        | some a => stripAlias a optimized
        | none => optimized
    let date_col : String := if hasSub "import".toList (pyLower table) then "BE_Date" else "SB_Date"
    let nc_ent : String × String :=
      match findGroupByCol qts with
      | some g =>
        if hasSub "product".toList (pyLower g) then ("Product_Name", "Product")
        else if hasSub "formatted".toList (pyLower g) then ("[Formatted_Name]", "Company")
        else if hasSub "importer/exporter".toList (pyLower g) then
          ("[Importer/Exporter_Name]", "Company")
        else ("[Importer/Exporter_Name]", "Company")
      | none => ("[Importer/Exporter_Name]", "Company")
    some (String.mk (pyStrip
      (summaryTemplate nc_ent.1 nc_ent.2 (String.mk table) (String.mk wc2) date_col).toList))

/-! ## Result rows and row formatting (agent.py, lines 870-885) -/

/-- A database scalar.  Dates carry year/month/day; floating-point numerics
beyond integer values do not appear in the claims and are folded into `vnum`
(`f"{float(n):.0f}"` of an integer renders its decimal digits; values beyond
the 53-bit float range and numeric re-parsing of strings are not modelled). -/
inductive Value where
  | vstr (s : String)
  | vnum (n : Int)
  | vdate (y m d : Nat)
  | vnull
deriving DecidableEq, Repr

/-- One result row: a column-name/value mapping in column order. -/
abbrev Row := List (String × Value)

def monthAbbrev : Nat → String
  | 1 => "Jan" | 2 => "Feb" | 3 => "Mar" | 4 => "Apr" | 5 => "May" | 6 => "Jun"
  | 7 => "Jul" | 8 => "Aug" | 9 => "Sep" | 10 => "Oct" | 11 => "Nov" | 12 => "Dec"
  | _ => ""

def pad2 (n : Nat) : String := if n < 10 then "0" ++ toString n else toString n

def pad4 (n : Nat) : String :=
  if n < 10 then "000" ++ toString n
  else if n < 100 then "00" ++ toString n
  else if n < 1000 then "0" ++ toString n
  else toString n

/-- Per-value formatting: dates become `'%d-%b-%Y'` strings; `BE_Number` and
`SB_Number` numerics become zero-decimal text; all else passes through. -/
def formatVal (col : String) (v : Value) : Value :=
  match v with
  | .vdate y m d => .vstr (pad2 d ++ "-" ++ monthAbbrev m ++ "-" ++ pad4 y)
  | .vnum n => if col = "BE_Number" || col = "SB_Number" then .vstr (toString n) else v
  | .vstr _ => v
  | .vnull => v

def formatRow (r : Row) : Row := r.map (fun p => (p.1, formatVal p.1 p.2))

/-! ## The Execution Engine: `try_execute_sql` (agent.py, lines 851-862) -/

/-- One attempted match of `(Importer_Name|Exporter_Name|Product_Name)\s*=\s*'([^']+)'`
(case-sensitive, no flags) at the head of `s`, with replacement
`\1 LIKE '%\2%'`. -/
def matchNameEq (s : List Char) : Option (List Char × List Char) :=
  match (match eatCS "Importer_Name".toList s with
         | some r => some ("Importer_Name".toList, r)
         | none =>
           match eatCS "Exporter_Name".toList s with
           | some r => some ("Exporter_Name".toList, r)
           | none =>
             match eatCS "Product_Name".toList s with
             | some r => some ("Product_Name".toList, r)
             | none => none) with
  | none => none
  | some (col, r) =>
    match eatChar '=' (r.dropWhile isPySpace) with
    | none => none
    | some r2 =>
      match eatChar '\'' (r2.dropWhile isPySpace) with
      | none => none
      | some r4 =>
        let v := r4.takeWhile (fun c => c ≠ '\'')
        if v.length = 0 then none
        else
          match eatChar '\'' (r4.drop v.length) with
          | none => none
          | some rest => some (col ++ " LIKE '%".toList ++ v ++ "%'".toList, rest)

/-- The repair rewriting applied before the single retry (line 858). -/
def repairNameEq (q : String) : String := String.mk (pySubAll matchNameEq q.toList)

/-- The failure condition of the repair branch (line 856):
`"Invalid column" in str(e) or "Syntax" in str(e)`. -/
def isRepairTrigger (e : String) : Bool :=
  hasSub "Invalid column".toList e.toList || hasSub "Syntax".toList e.toList

/-- `try_execute_sql` (lines 851-862) over a database oracle: a failure whose
text contains `Invalid column` or `Syntax` triggers exactly one retry with the
repaired query; any other failure, and any failure of the retried query,
propagates. -/
def try_execute_sql (db : String → Except String (List Row)) (q : String) :
    Except String (List Row) :=
  match db q with
  | .ok r => .ok r
  | .error e => if isRepairTrigger e then db (repairNameEq q) else .error e

/-! ## The Intent Classifier: `_detect_smalltalk` (agent.py, lines 504-534) -/

/-- Word-bounded occurrence of the literal `w` (whose first and last characters
are word characters) anywhere in `s`: `re.search(r"\b" + re.escape(w) + r"\b", s)`. -/
def occursWBAux (w : List Char) : Option Char → List Char → Bool
  | _, [] => false
  | prev, c :: cs =>
    (prevBoundary prev &&
      (match eatCS w (c :: cs) with
       | some r => headBoundary r
       | none => false)) || occursWBAux w (some c) cs

def occursWB (w s : List Char) : Bool := occursWBAux w none s

def greetingsList : List String :=
  ["hi", "hello", "hey", "good morning", "good afternoon", "good evening", "hola"]
def gratitudeList : List String :=
  ["thanks", "thank you", "appreciate", "great job", "cool", "awesome"]
def wellbeingList : List String :=
  ["how are you", "how's it going", "how are things", "how are you doing"]
def helpList : List String :=
  ["help", "what can you do", "who are you", "what is this",
   "what do you do", "capabilities", "features", "function",
   "what is your purpose"]

def smalltalkGreeting : String :=
  "Hello there! üëã I'm your analytics assistant. Ask me about import trends, totals, or comparisons."
def smalltalkWellbeing : String :=
  "I'm doing great ‚Äî thanks for asking! üòä How can I help you explore your import data today?"
def smalltalkGratitude : String :=
  "You're welcome! Happy to help anytime. üôå"
def smalltalkHelp : String :=
  "I am an AI Data Agent designed to analyze your Import/Export data.<br><br>I can help you with:<br>‚Ä¢ **Data Retrieval:** 'Show me full export data for Zinc.'<br>‚Ä¢ **Analysis:** 'Who are the top 5 importers?'<br>‚Ä¢ **Comparison:** 'Compare air vs sea shipments.'"

/-- `_detect_smalltalk` (lines 504-534): the stripped, lowered input is tested
against the four category word lists in the fixed order greeting, wellbeing,
gratitude, help. -/
def detect_smalltalk (user_query : String) : Option String :=
  let q := pyLower (pyStrip user_query.toList)
  if greetingsList.any (fun w => occursWB w.toList q) then some smalltalkGreeting
  else if wellbeingList.any (fun w => occursWB w.toList q) then some smalltalkWellbeing
  else if gratitudeList.any (fun w => occursWB w.toList q) then some smalltalkGratitude
  else if helpList.any (fun w => occursWB w.toList q) then some smalltalkHelp
  else none

/-! ## The Completion Parser: `_clean_llm_response` (agent.py, lines 143-155) -/

/-- A backtick (written by code point to keep the development ASCII-clean). -/
def btick : Char := Char.ofNat 96

def btick3 : List Char := [btick, btick, btick]

def fenceLit : List Char := btick3 ++ "json".toList

/-- The lazy body of the fenced pattern: scan for the first `}` whose following
`\s*` run is followed by a closing triple backtick; the accumulated content and
that `}` form the rest of the capture. -/
def fenceScanClose (acc : List Char) : List Char → Option (List Char)
  | [] => none
  | c :: cs =>
    if c = '}' then
      if (eatCS btick3 (cs.dropWhile isPySpace)).isSome then some (acc.reverse ++ ['}'])
      else fenceScanClose ('}' :: acc) cs
    else fenceScanClose (c :: acc) cs

/-- The fenced extraction: first position where
`` ```json\s*(\{.*?\})\s*``` `` (`re.DOTALL | re.IGNORECASE`) matches;
returns the captured group. -/
def fenceSearch : List Char → Option (List Char)
  | [] => none
  | c :: cs =>
    match eatCI fenceLit (c :: cs) with
    | some (_, r) =>
      match r.dropWhile isPySpace with
      | '{' :: r2 =>
        match fenceScanClose [] r2 with
        | some body => some ('{' :: body)
        | none => fenceSearch cs
      | _ => fenceSearch cs
    | none => fenceSearch cs

/-- The fallback `(\{.*?\})` (`re.DOTALL`): from the first `{` having any later
`}`, up to the first such `}` inclusive. -/
def braceFallback (s : List Char) : Option (List Char) :=
  match s.dropWhile (fun c => c ≠ '{') with
  | '{' :: r =>
    let body := r.takeWhile (fun c => c ≠ '}')
    match r.drop body.length with
    | '}' :: _ => some ('{' :: (body ++ ['}']))
    | _ => none
  | _ => none

/-- `_clean_llm_response` (lines 143-155). -/
def clean_llm_response (response_text : String) : Option String :=
  match fenceSearch response_text.toList with
  | some g => some (String.mk g)
  | none =>
    match braceFallback response_text.toList with
    | some g => some (String.mk g)
    | none => none

/-! ## The orchestrator: `ask` (agent.py, lines 539-981)

External capabilities are oracles: the completion step is summarised by its
observable outcome (`LlmStep`), JSON decoding of the cleaned completion text
by a partial function, database execution by a partial function from SQL text
to rows or an error message, narrative generation by its optional outcome, and
`time.time()` by a number.  A response dictionary is a record whose `Option`
fields are `none` exactly when the corresponding key is absent from the Python
dict.  The second component of the result is the entry synchronously inserted
into the process-wide `export_jobs` registry (the asynchronous file writer
that later mutates it is outside the synchronous contract modelled here). -/

/-- A response dictionary of `ask`; `none` marks an absent key. -/
structure AgentResponse where
  answer : String
  data : List Row
  query : String
  chart_title : Option String := none
  query_type : Option String := none
  is_time_series : Option Bool := none
  export_job_id : Option String := none
deriving DecidableEq, Repr

/-- The key set of the response dictionary. -/
def AgentResponse.fields (r : AgentResponse) : List String :=
  ["answer", "data", "query"]
    ++ (if r.chart_title.isSome then ["chart_title"] else [])
    ++ (if r.export_job_id.isSome then ["export_job_id"] else [])
    ++ (if r.query_type.isSome then ["query_type"] else [])
    ++ (if r.is_time_series.isSome then ["is_time_series"] else [])

/-- An `export_jobs` registry entry. -/
structure ExportJob where
  status : String
  progress : Nat
  file : Option String
deriving DecidableEq, Repr

/-- The values the orchestrator reads off the decoded JSON object via `.get`
(`none` marks an absent JSON key). -/
structure LlmData where
  sql_query : Option String
  answer : Option String
  chart_title : Option String
  is_time_series : Option Bool
  query_type : Option String

/-- Observable outcome of the completion step of `ask` (lines 786-808),
including its internal one-shot retry on an empty candidate list:
`emptyTwice` = no candidates even after the retry; `accessRaise` = accessing
the response raised; `gotText t` = raw text `t` was obtained. -/
inductive LlmStep where
  | emptyTwice
  | accessRaise
  | gotText (t : String)

/-- Oracles for one `ask` invocation. -/
structure AskEnv where
  llm : LlmStep
  parseJson : String → Option LlmData
  db : String → Except String (List Row)
  insight : Option String
  now : Nat

def msgRetryEmpty : String :=
  "I'm sorry, I couldn't process that question right now. Please try rephrasing it."
def msgNoText : String :=
  "I couldn't generate a response for that question. Please try again."
def msgAccess : String :=
  "I'm sorry, I ran into a temporary issue while processing your question."
def msgNoSql : String :=
  "I'm sorry, I couldn't generate a SQL query for that."
def msgSqlError : String :=
  "I couldn't run the generated SQL query correctly. Please rephrase your question or try again."
def msgOuter : String :=
  "I'm sorry, I encountered a temporary issue while generating that insight. Please try rephrasing your question."
def msgDefaultAnswer : String := "I found some data for you."

/-- The reduced three-key error dictionary used by every failure return. -/
def errEnvelope (ans q : String) : AgentResponse := { answer := ans, data := [], query := q }

def noDataMsg (user_query : String) : String :=
  "I've looked for the data you requested:\n" ++ String.mk [btick] ++ user_query
    ++ String.mk [btick] ++ "\nHowever, I couldn't find any matching records in the database."

/-- Thousands grouping of `f"{n:,}"`. -/
def commaRev : Nat → List Char → List Char
  | _, [] => []
  | i, c :: cs =>
    if i ≠ 0 && i % 3 = 0 then ',' :: c :: commaRev (i + 1) cs
    else c :: commaRev (i + 1) cs

def commaFmt (n : Nat) : String := String.mk ((commaRev 0 (toString n).toList.reverse).reverse)

/-- `_generate_insights` (lines 386-499) as observed by `ask`: `none` when the
summary statistics are absent or empty or the visualisation data is empty,
otherwise the completion oracle's optional narrative. -/
def insightsOf (env : AskEnv) (viz : List Row) (stats : Option (List Row)) : Option String :=
  match stats with
  | none => none
  | some [] => none
  | some (_ :: _) => if viz.isEmpty then none else env.insight

/-- Steps 9-10 of `ask` plus the large-data-set branch (lines 897-973). -/
def askFinish (env : AskEnv) (user_query answer0 chartTitle : String) (timeSeries : Bool)
    (queryType sq : String) (viz : List Row) (stats : Option (List Row)) :
    AgentResponse × Option (String × ExportJob) :=
  let insights := insightsOf env viz stats
  if viz.length > 10000 then
    let jobId := toString env.now
    let ans2 := answer0 ++ "\n\n" ++ (match insights with | some s => s | none => "None")
      ++ " \n\n‚è≥ The dataset contains **" ++ commaFmt viz.length
      ++ " rows**. I am preparing a downloadable Excel file..."
    ({ answer := ans2, data := [], query := sq, chart_title := some chartTitle,
       export_job_id := some jobId, query_type := some queryType,
       is_time_series := some timeSeries },
     some (jobId, { status := "processing", progress := 0, file := none }))
  else
    let ans2 := match insights with
      | some s => if s = "" then answer0 else answer0 ++ "\n\n" ++ s
      | none => answer0
    let ans3 := if viz.isEmpty then noDataMsg user_query else ans2
    ({ answer := ans3, data := viz, query := sq, chart_title := some chartTitle,
       query_type := some queryType, is_time_series := some timeSeries }, none)

/-- `ask` (agent.py, lines 539-981).  The result pairs the returned response
dictionary with the export-job registration performed, if any. -/
def ask (env : AskEnv) (user_query : String) (_history : List (String × String) := []) :
    AgentResponse × Option (String × ExportJob) :=
  match detect_smalltalk user_query with
  | some resp =>
    ({ answer := resp, data := [], query := "", query_type := some "analytical",
       chart_title := some "", is_time_series := some false }, none)
  | none =>
    match env.llm with
    | .emptyTwice => (errEnvelope msgRetryEmpty "", none)
    | .accessRaise => (errEnvelope msgAccess "", none)
    | .gotText t =>
      let llmText := String.mk (pyStrip t.toList)
      if llmText = "" then (errEnvelope msgNoText "", none)
      else
        match clean_llm_response llmText with
        | none => (errEnvelope msgOuter "", none)
        | some cleaned =>
          match env.parseJson cleaned with
          | none => (errEnvelope msgOuter "", none)
          | some d =>
            match d.sql_query with
            | none => (errEnvelope msgNoSql "N/A", none)
            | some q0 =>
              if q0 = "" then (errEnvelope msgNoSql "N/A", none)
              else
                let sq := fix_product_column_in_sql q0
                let answer0 := d.answer.getD msgDefaultAnswer
                let chartTitle := d.chart_title.getD ""
                let timeSeries := d.is_time_series.getD false
                let queryType := d.query_type.getD "analytical"
                match try_execute_sql env.db sq with
                | .error _ => (errEnvelope msgSqlError sq, none)
                | .ok rows =>
                  let viz := rows.map formatRow
                  match generate_summary_query sq with
                  | some sumq =>
                    match try_execute_sql env.db sumq with
                    | .error _ => (errEnvelope msgSqlError sq, none)
                    | .ok srows =>
                      askFinish env user_query answer0 chartTitle timeSeries queryType sq viz
                        (some srows)
                  | none =>
                    askFinish env user_query answer0 chartTitle timeSeries queryType sq viz none

/-! ## General scanning lemmas -/

theorem dropWhile_append_all {p : Char → Bool} {a l : List Char}
    (h : ∀ x ∈ a, p x = true) : (a ++ l).dropWhile p = l.dropWhile p := by
  induction a with
  | nil => rfl
  | cons c cs ih =>
    have hc : p c = true := h c (by simp)
    simp only [List.cons_append, List.dropWhile_cons, hc, if_true]
    exact ih (fun x hx => h x (by simp [hx]))

theorem takeWhile_append_stop {p : Char → Bool} {b cs : List Char} {c : Char}
    (hb : ∀ x ∈ b, p x = true) (hc : p c = false) :
    (b ++ c :: cs).takeWhile p = b := by
  induction b with
  | nil => simp [List.takeWhile, hc]
  | cons d ds ih =>
    have hd : p d = true := hb d (by simp)
    simp only [List.cons_append, List.takeWhile_cons, hd, if_true]
    rw [ih (fun x hx => hb x (by simp [hx]))]

theorem dropWhile_cons_stop {p : Char → Bool} {c : Char} {cs : List Char}
    (hc : p c = false) : (c :: cs).dropWhile p = c :: cs := by
  simp [List.dropWhile_cons, hc]

theorem eatCI_refl_append (p s : List Char) : eatCI p (p ++ s) = some (p, s) := by
  induction p with
  | nil => rfl
  | cons c cs ih => simp [eatCI, eqCI, ih]

theorem eatCS_refl_append (p s : List Char) : eatCS p (p ++ s) = some s := by
  induction p with
  | nil => rfl
  | cons c cs ih => simp [eatCS, ih]

/-! ## Claim C10: the Completion Parser's non-greedy brace fallback -/

/-- C10.  If the raw completion text contains no usable fenced block (the
fenced extraction fails) and decomposes as `a ++ '{' :: b ++ '}' :: c` with no
`{` in `a` and no `}` in `b` — that is, the first `{` and the first `}` after
it — then `_clean_llm_response` returns exactly the substring from that `{` to
that `}` inclusive.  Moreover, when that segment contains a nested `{`, the
returned text has unbalanced braces (so it is not well-formed JSON), and it is
a strict prefix of every balanced brace-prefix of the text from the first `{`
onwards (in particular of the first brace-delimited object). -/
theorem c10_clean_llm_response_brace_fallback
    (s : String) (a b c : List Char)
    (hfence : fenceSearch s.toList = none)
    (hsplit : s.toList = a ++ '{' :: (b ++ '}' :: c))
    (ha : '{' ∉ a) (hb : '}' ∉ b) :
    clean_llm_response s = some (String.mk ('{' :: (b ++ ['}']))) ∧
    ('{' ∈ b →
      (('{' :: (b ++ ['}'])).count '{' ≠ ('{' :: (b ++ ['}'])).count '}') ∧
      (∀ obj t', obj ++ t' = '{' :: (b ++ '}' :: c) →
        obj.count '{' = obj.count '}' → obj ≠ [] →
        ∃ u, ('{' :: (b ++ ['}'])) ++ u = obj ∧ u ≠ [])) := by
  have hres_len : ('{' :: (b ++ ['}'])).length = b.length + 2 := by simp
  have hsplit3 : ('{' :: (b ++ '}' :: c)) = ('{' :: (b ++ ['}'])) ++ c := by simp
  have hres_take : ('{' :: (b ++ ['}'])) = ('{' :: (b ++ '}' :: c)).take (b.length + 2) := by
    rw [hsplit3, ← hres_len, List.take_left]
  have hdropc : ('{' :: (b ++ '}' :: c)).drop (b.length + 2) = c := by
    rw [hsplit3, ← hres_len, List.drop_left]
  constructor
  · unfold clean_llm_response
    rw [hfence, hsplit]
    unfold braceFallback
    have h1 : (a ++ '{' :: (b ++ '}' :: c)).dropWhile (fun x => x ≠ '{') =
        '{' :: (b ++ '}' :: c) := by
      rw [dropWhile_append_all (fun x hx => by simpa using ne_of_mem_of_not_mem hx ha)]
      exact dropWhile_cons_stop (by simp)
    rw [h1]
    have h2 : (b ++ '}' :: c).takeWhile (fun x => x ≠ '}') = b :=
      takeWhile_append_stop (fun x hx => by simpa using ne_of_mem_of_not_mem hx hb) (by simp)
    simp only [h2]
    rw [List.drop_left]
    rfl
  · intro hnest
    have hcount1 : ('{' :: (b ++ ['}'])).count '{' = b.count '{' + 1 := by
      simp [List.count_cons, List.count_append]
    have hcount2 : ('{' :: (b ++ ['}'])).count '}' = 1 := by
      simp [List.count_cons, List.count_append, List.count_eq_zero_of_not_mem hb]
    have hpos : 0 < b.count '{' := List.count_pos_iff.mpr hnest
    refine ⟨by omega, ?_⟩
    intro obj t' hobj hbal hne
    have hklen : obj.length ≤ b.length + 2 + c.length := by
      have := congrArg List.length hobj
      simp at this
      omega
    have hobj_take : obj = ('{' :: (b ++ '}' :: c)).take obj.length := by
      rw [← hobj, List.take_left]
    have hhead : 1 ≤ obj.count '{' := by
      cases obj with
      | nil => exact absurd rfl hne
      | cons o os =>
        have ho : o = '{' := by
          have := congrArg (fun l => l.head?) hobj
          simpa using this
        subst ho
        simp [List.count_cons]
    have hmem : '}' ∈ obj := by
      by_contra hno
      rw [List.count_eq_zero_of_not_mem hno] at hbal
      omega
    have hlen2 : b.length + 2 ≤ obj.length := by
      by_contra hlt
      push_neg at hlt
      have hpre : obj = ('{' :: b).take obj.length := by
        conv_lhs => rw [hobj_take]
        have h4 : ('{' :: (b ++ '}' :: c)) = ('{' :: b) ++ ('}' :: c) := by simp
        rw [h4, List.take_append_of_le_length (by simp only [List.length_cons]; omega)]
      have h5 : '}' ∈ ('{' :: b) := by
        rw [hpre] at hmem
        exact List.mem_of_mem_take hmem
      rw [List.mem_cons] at h5
      rcases h5 with h5 | h5
      · exact absurd h5 (by decide)
      · exact hb h5
    have hne2 : obj.length ≠ b.length + 2 := by
      intro heq
      have hoeq : obj = '{' :: (b ++ ['}']) := by
        rw [hobj_take, heq, ← hres_take]
      rw [hoeq] at hbal
      omega
    refine ⟨obj.drop (b.length + 2), ?_, ?_⟩
    · have hr : ('{' :: (b ++ ['}'])) = obj.take (b.length + 2) := by
        rw [hres_take, hobj_take, List.take_take]
        congr 1
        omega
      rw [hr, List.take_append_drop]
    · intro hu
      have h6 := congrArg List.length hu
      simp only [List.length_drop, List.length_nil] at h6
      omega

/-- C10 witness. -/
theorem c10_clean_llm_response_brace_fallback_witness :
    clean_llm_response "ab\x7bcd\x7be\x7df" = some "\x7bcd\x7be\x7d" ∧
    ("\x7bcd\x7be\x7d".toList.count '{' ≠ "\x7bcd\x7be\x7d".toList.count '}') := by
  have h := c10_clean_llm_response_brace_fallback "ab\x7bcd\x7be\x7df"
    ['a', 'b'] ['c', 'd', '{', 'e'] ['f']
    (by decide) (by decide) (by decide) (by decide)
  refine ⟨?_, ?_⟩
  · rw [h.1]; rfl
  · have h2 := (h.2 (by decide)).1
    exact h2

/-! ## Claim C7: smalltalk short-circuit -/

/-- C7.  Whenever the stripped, lowered user input contains a word-bounded
occurrence of a word from one of the four smalltalk categories, the Intent
Classifier returns a non-empty canned response, and for every environment
`ask` returns the fixed envelope (canned answer, empty data, empty query,
`query_type = "analytical"`, empty chart title, `is_time_series = false`)
without registering any export job — independence from the environment being
exactly the statement that the completion capability is never consulted. -/
theorem c7_smalltalk_short_circuit (uq : String)
    (h : ∃ w ∈ greetingsList ++ wellbeingList ++ gratitudeList ++ helpList,
      occursWB w.toList (pyLower (pyStrip uq.toList)) = true) :
    ∃ r, detect_smalltalk uq = some r ∧ r ≠ "" ∧
      ∀ env : AskEnv, ask env uq [] =
        ({ answer := r, data := [], query := "", query_type := some "analytical",
           chart_title := some "", is_time_series := some false }, none) := by
  have hdet : ∃ r, detect_smalltalk uq = some r ∧ r ≠ "" := by
    unfold detect_smalltalk
    by_cases h1 : greetingsList.any (fun w => occursWB w.toList (pyLower (pyStrip uq.toList)))
    · exact ⟨smalltalkGreeting, by rw [if_pos h1], by decide⟩
    · by_cases h2 : wellbeingList.any (fun w => occursWB w.toList (pyLower (pyStrip uq.toList)))
      · exact ⟨smalltalkWellbeing, by rw [if_neg h1, if_pos h2], by decide⟩
      · by_cases h3 : gratitudeList.any (fun w => occursWB w.toList (pyLower (pyStrip uq.toList)))
        · exact ⟨smalltalkGratitude, by rw [if_neg h1, if_neg h2, if_pos h3], by decide⟩
        · by_cases h4 : helpList.any (fun w => occursWB w.toList (pyLower (pyStrip uq.toList)))
          · exact ⟨smalltalkHelp, by rw [if_neg h1, if_neg h2, if_neg h3, if_pos h4], by decide⟩
          · exfalso
            obtain ⟨w, hw, hocc⟩ := h
            simp only [List.mem_append] at hw
            rcases hw with ((hw | hw) | hw) | hw
            · exact h1 (List.any_eq_true.mpr ⟨w, hw, hocc⟩)
            · exact h2 (List.any_eq_true.mpr ⟨w, hw, hocc⟩)
            · exact h3 (List.any_eq_true.mpr ⟨w, hw, hocc⟩)
            · exact h4 (List.any_eq_true.mpr ⟨w, hw, hocc⟩)
  obtain ⟨r, hr, hne⟩ := hdet
  refine ⟨r, hr, hne, fun env => ?_⟩
  unfold ask
  rw [hr]

/-- C7 witness at the input `"hi"`. -/
theorem c7_smalltalk_short_circuit_witness :
    ∃ r, detect_smalltalk "hi" = some r ∧ r ≠ "" ∧
      ∀ env : AskEnv, ask env "hi" [] =
        ({ answer := r, data := [], query := "", query_type := some "analytical",
           chart_title := some "", is_time_series := some false }, none) :=
  c7_smalltalk_short_circuit "hi" ⟨"hi", by decide, by decide⟩

/-! ## Claim C3: the Execution Engine's repair-retry -/

/-- C3.  `try_execute_sql` succeeds untouched queries directly; on a failure
whose text matches the invalid-column/syntax condition it issues exactly one
retry, whose sole difference is the equality-to-LIKE rewriting of the three
name columns, and whose own outcome — success or failure — is final; any other
failure propagates unchanged.  On the specification's example the repair
rewrites `Importer_Name = 'Acme'` to `Importer_Name LIKE '%Acme%'` and leaves
every other token of the query intact. -/
theorem c3_try_execute_sql_repair_retry (db : String → Except String (List Row)) (q : String) :
    (∀ rows, db q = .ok rows → try_execute_sql db q = .ok rows) ∧
    (∀ e, db q = .error e → isRepairTrigger e = true →
      try_execute_sql db q = db (repairNameEq q)) ∧
    (∀ e, db q = .error e → isRepairTrigger e = false →
      try_execute_sql db q = .error e) ∧
    repairNameEq "SELECT * FROM T WHERE Importer_Name = 'Acme' ORDER BY x" =
      "SELECT * FROM T WHERE Importer_Name LIKE '%Acme%' ORDER BY x" := by
  refine ⟨?_, ?_, ?_, by decide⟩
  · intro rows hok
    unfold try_execute_sql
    rw [hok]
  · intro e herr htrig
    unfold try_execute_sql
    rw [herr]
    simp [htrig]
  · intro e herr htrig
    unfold try_execute_sql
    rw [herr]
    simp [htrig]

def c3db : String → Except String (List Row) := fun s =>
  if s = "SELECT 1 WHERE Product_Name = 'Zn'" then .error "Invalid column name 'Product_Name'"
  else .ok []

/-- C3 witness: a first failure with an invalid-column message leads to
exactly the repaired query being executed, successfully. -/
theorem c3_try_execute_sql_repair_retry_witness :
    try_execute_sql c3db "SELECT 1 WHERE Product_Name = 'Zn'" =
      c3db (repairNameEq "SELECT 1 WHERE Product_Name = 'Zn'") ∧
    c3db (repairNameEq "SELECT 1 WHERE Product_Name = 'Zn'") = .ok [] :=
  ⟨(c3_try_execute_sql_repair_retry c3db "SELECT 1 WHERE Product_Name = 'Zn'").2.1
      "Invalid column name 'Product_Name'" (by rfl) (by decide),
    by rfl⟩

/-! ## Claim C4: the SQL Normalizer's WHERE-scoped product rewriting -/

/-- C4.  A query in which the `\bWHERE\b` search fails is returned
byte-for-byte unchanged, and on the specification's example the normalizer
rewrites only the WHERE-clause product predicate — producing the canonical
`[Product] LIKE '%ZINCINGOT%'` — while the `SELECT` and `GROUP BY` column
references stay untouched. -/
theorem c4_fix_product_where_scope :
    (∀ q : String, splitWordCI whereKw none q.toList = none →
      fix_product_column_in_sql q = q) ∧
    fix_product_column_in_sql
        "SELECT Product_Name, SUM(Total_Value_INR) AS V FROM Exim WHERE Product LIKE '%zinc ingot%' GROUP BY Product_Name" =
      "SELECT Product_Name, SUM(Total_Value_INR) AS V FROM Exim WHERE [Product] LIKE '%ZINCINGOT%' GROUP BY Product_Name" := by
  constructor
  · intro q hq
    unfold fix_product_column_in_sql
    rw [hq]
  · decide

/-- C4 witness: a query with no WHERE clause is returned unchanged. -/
theorem c4_fix_product_where_scope_witness :
    fix_product_column_in_sql "SELECT TOP 5 Product FROM Exim GROUP BY Product" =
      "SELECT TOP 5 Product FROM Exim GROUP BY Product" :=
  c4_fix_product_where_scope.1 "SELECT TOP 5 Product FROM Exim GROUP BY Product" (by decide)

/-! ## Claim C1: the response envelope's field set -/

def reducedFields : List String := ["answer", "data", "query"]
def stableFields : List String :=
  ["answer", "data", "query", "chart_title", "query_type", "is_time_series"]
def stableFieldsExport : List String :=
  ["answer", "data", "query", "chart_title", "export_job_id", "query_type", "is_time_series"]

def c1env : AskEnv :=
  { llm := .gotText "no structured payload here",
    parseJson := fun _ => none,
    db := fun _ => .error "db unavailable",
    insight := none,
    now := 0 }

/-- C1 counterexample: on an externally-triggered failure (the completion text
carries no JSON object, so parsing fails at the orchestration boundary) the
response is the reduced three-key dictionary — `chart_title`, `query_type` and
`is_time_series` are absent, refuting the claim that every error is converted
into the stable six-field envelope. -/
theorem c1_envelope_counterexample :
    (ask c1env "analyze the market" []).1.fields = reducedFields ∧
    "chart_title" ∉ (ask c1env "analyze the market" []).1.fields ∧
    "query_type" ∉ (ask c1env "analyze the market" []).1.fields ∧
    "is_time_series" ∉ (ask c1env "analyze the market" []).1.fields := by
  refine ⟨by decide, by decide, by decide, by decide⟩

/-- C1 amended.  Every response of `ask` carries at least the three keys
`answer`, `data`, `query`; the full stable field set (with `export_job_id`
present exactly on the export path) is produced on the smalltalk path and on
the success paths, while every failure path returns only the reduced
three-key set. -/
theorem c1_envelope_shapes (env : AskEnv) (uq : String) :
    (ask env uq []).1.fields = reducedFields ∨
    (ask env uq []).1.fields = stableFields ∨
    (ask env uq []).1.fields = stableFieldsExport := by
  have hfin : ∀ u a ct ts qt sq viz stats,
      (askFinish env u a ct ts qt sq viz stats).1.fields = stableFields ∨
      (askFinish env u a ct ts qt sq viz stats).1.fields = stableFieldsExport := by
    intro u a ct ts qt sq viz stats
    unfold askFinish
    by_cases hlen : viz.length > 10000
    · right
      rw [if_pos hlen]
      rfl
    · left
      rw [if_neg hlen]
      rfl
  unfold ask
  cases detect_smalltalk uq with
  | some r => exact Or.inr (Or.inl rfl)
  | none =>
    cases env.llm with
    | emptyTwice => exact Or.inl rfl
    | accessRaise => exact Or.inl rfl
    | gotText t =>
      dsimp only
      by_cases ht : (String.mk (pyStrip t.toList) : String) = ""
      · rw [if_pos ht]
        exact Or.inl rfl
      · rw [if_neg ht]
        cases clean_llm_response (String.mk (pyStrip t.toList)) with
        | none => exact Or.inl rfl
        | some cleaned =>
          dsimp only
          cases env.parseJson cleaned with
          | none => exact Or.inl rfl
          | some d =>
            dsimp only
            cases d.sql_query with
            | none => exact Or.inl rfl
            | some q0 =>
              dsimp only
              by_cases hq : q0 = ""
              · rw [if_pos hq]
                exact Or.inl rfl
              · rw [if_neg hq]
                cases try_execute_sql env.db (fix_product_column_in_sql q0) with
                | error e => exact Or.inl rfl
                | ok rows =>
                  dsimp only
                  cases generate_summary_query (fix_product_column_in_sql q0) with
                  | some sumq =>
                    dsimp only
                    cases try_execute_sql env.db sumq with
                    | error e => exact Or.inl rfl
                    | ok srows => exact Or.inr (hfin _ _ _ _ _ _ _ _)
                  | none => exact Or.inr (hfin _ _ _ _ _ _ _ _)

/-! ## Claim C5: graceful degradation when no FROM clause is found -/

/-- C5.  When the table regex locates no FROM clause, the Summary-Query
Deriver returns `none` (it is a total function, so no exception escapes), and
the orchestrator then skips summary statistics entirely while still returning
the primary query's formatted rows in the full success envelope with no export
registration. -/
theorem c5_no_from_clause_graceful (env : AskEnv) (uq t cleaned : String)
    (d : LlmData) (q0 : String) (rows : List Row)
    (hst : detect_smalltalk uq = none)
    (hllm : env.llm = .gotText t)
    (hts : String.mk (pyStrip t.toList) ≠ "")
    (hclean : clean_llm_response (String.mk (pyStrip t.toList)) = some cleaned)
    (hparse : env.parseJson cleaned = some d)
    (hsql : d.sql_query = some q0)
    (hq0 : q0 ≠ "")
    (hfrom : findFromSplit ((cteSelTail none (fix_product_column_in_sql q0).toList).getD
      (fix_product_column_in_sql q0).toList) = none)
    (hexec : try_execute_sql env.db (fix_product_column_in_sql q0) = .ok rows)
    (hsize : (rows.map formatRow).length ≤ 10000) :
    generate_summary_query (fix_product_column_in_sql q0) = none ∧
    ask env uq [] =
      ({ answer := (if (rows.map formatRow).isEmpty then noDataMsg uq
                    else d.answer.getD msgDefaultAnswer),
         data := rows.map formatRow, query := fix_product_column_in_sql q0,
         chart_title := some (d.chart_title.getD ""),
         query_type := some (d.query_type.getD "analytical"),
         is_time_series := some (d.is_time_series.getD false) }, none) := by
  have hgsq : generate_summary_query (fix_product_column_in_sql q0) = none := by
    simp only [generate_summary_query]
    rw [hfrom]
  refine ⟨hgsq, ?_⟩
  unfold ask
  rw [hst, hllm]
  dsimp only
  rw [if_neg hts, hclean]
  dsimp only
  rw [hparse]
  dsimp only
  rw [hsql]
  dsimp only
  rw [if_neg hq0, hexec]
  dsimp only
  rw [hgsq]
  dsimp only
  unfold askFinish
  rw [if_neg (by omega)]
  dsimp only [insightsOf]

def c5cleaned : String := "\x7b\"sql_query\": \"SELECT 1\"\x7d"
def c5t : String := "  \x7b\"sql_query\": \"SELECT 1\"\x7d  "
def c5data : LlmData := ⟨some "SELECT 1", none, none, none, none⟩
def c5row : Row := [("TotalValue", Value.vnum 42)]
def c5env : AskEnv :=
  { llm := .gotText c5t,
    parseJson := fun s => if s = c5cleaned then some c5data else none,
    db := fun s => if s = "SELECT 1" then .ok [c5row] else .error "no such query",
    insight := none,
    now := 0 }

/-- C5 witness. -/
theorem c5_no_from_clause_graceful_witness :
    generate_summary_query (fix_product_column_in_sql "SELECT 1") = none ∧
    ask c5env "zzz" [] =
      ({ answer := (if (([c5row] : List Row).map formatRow).isEmpty then noDataMsg "zzz"
                    else c5data.answer.getD msgDefaultAnswer),
         data := ([c5row] : List Row).map formatRow,
         query := fix_product_column_in_sql "SELECT 1",
         chart_title := some (c5data.chart_title.getD ""),
         query_type := some (c5data.query_type.getD "analytical"),
         is_time_series := some (c5data.is_time_series.getD false) }, none) :=
  c5_no_from_clause_graceful c5env "zzz" c5t c5cleaned c5data "SELECT 1" [c5row]
    (by decide) rfl (by decide) (by decide) rfl rfl (by decide) (by decide) rfl (by decide)

/-! ## Claim C6: a failing summary query discards the primary result -/

/-- C6.  When the derived summary query exists but its execution fails (after
`try_execute_sql`'s own one-shot repair), the same handler as for a primary
failure fires: `ask` returns the terminal "couldn't run the generated SQL
query" reduced envelope with empty data, discarding the already-fetched
primary rows; graceful degradation happens only on the `none` derivation
signal, not on summary execution failure. -/
theorem c6_summary_failure_discards_primary (env : AskEnv) (uq t cleaned : String)
    (d : LlmData) (q0 sumq e : String) (rows : List Row)
    (hst : detect_smalltalk uq = none)
    (hllm : env.llm = .gotText t)
    (hts : String.mk (pyStrip t.toList) ≠ "")
    (hclean : clean_llm_response (String.mk (pyStrip t.toList)) = some cleaned)
    (hparse : env.parseJson cleaned = some d)
    (hsql : d.sql_query = some q0)
    (hq0 : q0 ≠ "")
    (hexec : try_execute_sql env.db (fix_product_column_in_sql q0) = .ok rows)
    (hsum : generate_summary_query (fix_product_column_in_sql q0) = some sumq)
    (hsfail : try_execute_sql env.db sumq = .error e) :
    ask env uq [] = (errEnvelope msgSqlError (fix_product_column_in_sql q0), none) ∧
    (ask env uq []).1.data = [] ∧
    (ask env uq []).1.fields = reducedFields := by
  have hmain : ask env uq [] = (errEnvelope msgSqlError (fix_product_column_in_sql q0), none) := by
    unfold ask
    rw [hst, hllm]
    dsimp only
    rw [if_neg hts, hclean]
    dsimp only
    rw [hparse]
    dsimp only
    rw [hsql]
    dsimp only
    rw [if_neg hq0, hexec]
    dsimp only
    rw [hsum]
    dsimp only
    rw [hsfail]
  exact ⟨hmain, by rw [hmain]; rfl, by rw [hmain]; rfl⟩

def c6q : String := "SELECT * FROM T WHERE x = 1"
def c6sumq : String := (generate_summary_query (fix_product_column_in_sql c6q)).getD ""
def c6cleaned : String := "\x7b\"sql_query\": \"SELECT * FROM T WHERE x = 1\"\x7d"
def c6t : String := "here you go: " ++ c6cleaned
def c6data : LlmData := ⟨some c6q, some "Here.", some "Chart", some false, some "analytical"⟩
def c6env : AskEnv :=
  { llm := .gotText c6t,
    parseJson := fun s => if s = c6cleaned then some c6data else none,
    db := fun s => if s = c6q then .ok [[("x", Value.vnum 1)]] else .error "boom",
    insight := none,
    now := 0 }

set_option maxRecDepth 16384 in
/-- C6 witness: the primary query succeeds with one row, the derived summary
query fails, and the whole request collapses to the reduced error envelope. -/
theorem c6_summary_failure_discards_primary_witness :
    ask c6env "zzz" [] = (errEnvelope msgSqlError (fix_product_column_in_sql c6q), none) ∧
    (ask c6env "zzz" []).1.data = [] ∧
    (ask c6env "zzz" []).1.fields = reducedFields :=
  c6_summary_failure_discards_primary c6env "zzz" c6t c6cleaned c6data c6q c6sumq "boom"
    [[("x", Value.vnum 1)]]
    (by decide) rfl (by decide) (by decide) rfl rfl (by decide) rfl rfl rfl

/-! ## Claim C8: the export-job threshold -/

theorem toDigitsCore_length_gt (b : Nat) :
    ∀ (f n : Nat) (l : List Char), l.length < (Nat.toDigitsCore b (f + 1) n l).length := by
  intro f
  induction f with
  | zero =>
    intro n l
    simp only [Nat.toDigitsCore]
    split <;> simp
  | succ f ih =>
    intro n l
    simp only [Nat.toDigitsCore]
    split
    · simp
    · exact Nat.lt_trans (by simp) (ih (n / b) (Nat.digitChar (n % b) :: l))

/-- `str(int(time.time()))` is never the empty string. -/
theorem natToString_ne_empty (n : Nat) : toString n ≠ "" := by
  show Nat.repr n ≠ ""
  unfold Nat.repr
  intro h
  have h2 : Nat.toDigits 10 n = [] := by
    have h3 := congrArg String.toList h
    simpa [List.asString] using h3
  unfold Nat.toDigits at h2
  have h4 := toDigitsCore_length_gt 10 n n []
  rw [h2] at h4
  simp at h4

/-- C8.  On a successfully executed primary query (with the summary stage
either skipped or successful), a formatted row count above 10,000 makes `ask`
register a fresh time-derived job id with status `processing`, progress `0`
and no file, and return an envelope whose `export_job_id` is that non-empty id
and whose data payload is empty; at or below 10,000 rows no job is registered
and no `export_job_id` key is present. -/
theorem c8_export_job_threshold (env : AskEnv) (uq t cleaned : String)
    (d : LlmData) (q0 : String) (rows : List Row)
    (hst : detect_smalltalk uq = none)
    (hllm : env.llm = .gotText t)
    (hts : String.mk (pyStrip t.toList) ≠ "")
    (hclean : clean_llm_response (String.mk (pyStrip t.toList)) = some cleaned)
    (hparse : env.parseJson cleaned = some d)
    (hsql : d.sql_query = some q0)
    (hq0 : q0 ≠ "")
    (hexec : try_execute_sql env.db (fix_product_column_in_sql q0) = .ok rows)
    (hsum : generate_summary_query (fix_product_column_in_sql q0) = none ∨
      ∃ sumq srows, generate_summary_query (fix_product_column_in_sql q0) = some sumq ∧
        try_execute_sql env.db sumq = .ok srows) :
    ((rows.map formatRow).length > 10000 →
      (ask env uq []).2 = some (toString env.now,
        { status := "processing", progress := 0, file := none }) ∧
      (ask env uq []).1.export_job_id = some (toString env.now) ∧
      toString env.now ≠ "" ∧
      (ask env uq []).1.data = []) ∧
    ((rows.map formatRow).length ≤ 10000 →
      (ask env uq []).2 = none ∧
      (ask env uq []).1.export_job_id = none ∧
      (ask env uq []).1.data = rows.map formatRow) := by
  have hask : ∃ stats, ask env uq [] =
      askFinish env uq (d.answer.getD msgDefaultAnswer) (d.chart_title.getD "")
        (d.is_time_series.getD false) (d.query_type.getD "analytical")
        (fix_product_column_in_sql q0) (rows.map formatRow) stats := by
    unfold ask
    rw [hst, hllm]
    dsimp only
    rw [if_neg hts, hclean]
    dsimp only
    rw [hparse]
    dsimp only
    rw [hsql]
    dsimp only
    rw [if_neg hq0, hexec]
    dsimp only
    rcases hsum with hnone | ⟨sumq, srows, hsq, hsok⟩
    · rw [hnone]
      exact ⟨none, rfl⟩
    · rw [hsq]
      dsimp only
      rw [hsok]
      exact ⟨some srows, rfl⟩
  obtain ⟨stats, hask⟩ := hask
  rw [hask]
  unfold askFinish
  constructor
  · intro hgt
    rw [if_pos hgt]
    exact ⟨rfl, rfl, natToString_ne_empty env.now, rfl⟩
  · intro hle
    rw [if_neg (by omega)]
    exact ⟨rfl, rfl, rfl⟩

def c8rows : List Row := List.replicate 10001 []
def c8env : AskEnv :=
  { llm := .gotText c5t,
    parseJson := fun s => if s = c5cleaned then some c5data else none,
    db := fun s => if s = "SELECT 1" then .ok c8rows else .error "no such query",
    insight := none,
    now := 1700000000 }

set_option maxRecDepth 16384 in
/-- C8 witness: 10,001 result rows trigger an export-job registration with a
non-empty id, status `processing`, progress `0`, no file, and an empty data
payload in the response. -/
theorem c8_export_job_threshold_witness :
    (ask c8env "zzz" []).2 = some (toString (1700000000 : Nat),
      { status := "processing", progress := 0, file := none }) ∧
    (ask c8env "zzz" []).1.export_job_id = some (toString (1700000000 : Nat)) ∧
    toString (1700000000 : Nat) ≠ "" ∧
    (ask c8env "zzz" []).1.data = [] :=
  (c8_export_job_threshold c8env "zzz" c5t c5cleaned c5data "SELECT 1" c8rows
      (by decide) rfl (by decide) (by decide) rfl rfl (by decide) rfl
      (Or.inl (by decide))).1
    (by simp only [List.length_map, c8rows, List.length_replicate]; omega)

/-! ## Claim C2: the sargable-date rewrite and its operator class -/

set_option maxRecDepth 16384 in
/-- C2 counterexample: a `<` comparison — a comparison operator — is not
rewritten at all.  The operator class of the source pattern is `[>=]+`, so
`YEAR(BE_Date) < 2024` survives verbatim, with no date-from-parts form, both
through the rewrite itself and through the full Summary-Query Deriver. -/
theorem c2_sargable_counterexample :
    pySubAll matchSarg "WHERE YEAR(BE_Date) < 2024".toList =
      "WHERE YEAR(BE_Date) < 2024".toList ∧
    hasSub "DATEFROMPARTS".toList (pySubAll matchSarg "WHERE YEAR(BE_Date) < 2024".toList)
      = false ∧
    (∃ s, generate_summary_query "SELECT x FROM T WHERE YEAR(BE_Date) < 2024" = some s ∧
      hasSub "YEAR(BE_Date) < 2024".toList s.toList = true ∧
      hasSub "DATEFROMPARTS".toList s.toList = false) :=
  ⟨by decide, by decide,
    ⟨(generate_summary_query "SELECT x FROM T WHERE YEAR(BE_Date) < 2024").getD "",
      rfl, by decide, by decide⟩⟩

theorem matchSarg_none_head {c : Char} {rest : List Char} (h : c.toLower ≠ 'y') :
    matchSarg (c :: rest) = none := by
  have hci : eqCI 'Y' c = false := by
    unfold eqCI
    rw [show 'Y'.toLower = 'y' from by decide]
    simp only [decide_eq_false_iff_not]
    exact fun hc => h hc.symm
  have hy : eatCI "YEAR(".toList (c :: rest) = none := by
    show eatCI ('Y' :: "EAR(".toList) (c :: rest) = none
    simp [eatCI, hci]
  simp only [matchSarg, hy]

theorem pySubAll_matchSarg_pre (pre rest : List Char) (h : ∀ c ∈ pre, c.toLower ≠ 'y') :
    pySubAll matchSarg (pre ++ rest) = pre ++ pySubAll matchSarg rest := by
  induction pre with
  | nil => rfl
  | cons c cs ih =>
    rw [List.cons_append,
      pySubAll_cons_none (matchSarg_none_head (h c (by simp))),
      ih (fun x hx => h x (by simp [hx]))]
    rfl

theorem takeWhile_eq_self_of_all {p : Char → Bool} {l : List Char}
    (h : ∀ c ∈ l, p c = true) : l.takeWhile p = l := by
  induction l with
  | nil => rfl
  | cons c cs ih =>
    simp only [List.takeWhile_cons, h c (by simp), if_true]
    rw [ih (fun x hx => h x (by simp [hx]))]

theorem isDigit_toLower_eq {c : Char} (h : c.isDigit = true) : c.toLower = c := by
  simp only [Char.isDigit, Bool.and_eq_true, decide_eq_true_eq] at h
  obtain ⟨h1, h2⟩ := h
  simp only [Char.toLower]
  rw [if_neg]
  rintro ⟨hge, hle⟩
  have t3 : c.val.toNat ≤ 57 := by exact_mod_cast h2
  exact absurd t3 (by unfold Char.toNat at hge; omega)

theorem eqCI_y_digit {c : Char} (h : c.isDigit = true) : eqCI 'Y' c = false := by
  unfold eqCI
  rw [show 'Y'.toLower = 'y' from by decide, isDigit_toLower_eq h]
  simp only [decide_eq_false_iff_not]
  intro hc
  simp only [Char.isDigit, Bool.and_eq_true, decide_eq_true_eq] at h
  obtain ⟨h1, h2⟩ := h
  have t3 : c.val.toNat ≤ 57 := by exact_mod_cast h2
  rw [← hc] at t3
  exact absurd t3 (by decide)

theorem isDigit_not_space {c : Char} (h : c.isDigit = true) : isPySpace c = false := by
  simp only [Char.isDigit, Bool.and_eq_true, decide_eq_true_eq] at h
  obtain ⟨h1, h2⟩ := h
  have t2 : 48 ≤ c.val.toNat := by exact_mod_cast h1
  have t3 : c.val.toNat ≤ 57 := by exact_mod_cast h2
  simp only [isPySpace, Bool.or_eq_false_iff, decide_eq_false_iff_not]
  refine ⟨⟨⟨⟨⟨?_, ?_⟩, ?_⟩, ?_⟩, ?_⟩, ?_⟩ <;>
    (intro hc; rw [hc] at t2; exact absurd t2 (by decide))

theorem matchYearExpr_digits (y : List Char) (hy4 : y.length = 4)
    (hyd : ∀ c ∈ y, c.isDigit = true) : matchYearExpr y = some (y, []) := by
  obtain ⟨d, ds, rfl⟩ : ∃ d ds, y = d :: ds := by
    cases y with
    | nil => simp at hy4
    | cons d ds => exact ⟨d, ds, rfl⟩
  have hne : eatCI "YEAR(GETDATE())".toList (d :: ds) = none := by
    show eatCI ('Y' :: "EAR(GETDATE())".toList) (d :: ds) = none
    simp [eatCI, eqCI_y_digit (hyd d (by simp))]
  simp only [matchYearExpr, hne]
  rw [takeWhile_eq_self_of_all hyd]
  rw [if_pos (by omega)]
  rw [← hy4, List.take_length, List.drop_length]

theorem dropWhile_space_cons (xs : List Char) :
    (' ' :: xs).dropWhile isPySpace = xs.dropWhile isPySpace := by
  simp only [List.dropWhile_cons]
  rw [if_pos (by decide)]

theorem eatChar_self (c : Char) (xs : List Char) : eatChar c (c :: xs) = some xs := by
  simp [eatChar]

theorem matchSarg_comparison (col op y : List Char)
    (hcol : col ≠ []) (hcolc : ∀ c ∈ col, isWordChar c = true ∨ c = '.')
    (hop : op ≠ []) (hopc : ∀ c ∈ op, c = '>' ∨ c = '=')
    (hy4 : y.length = 4) (hyd : ∀ c ∈ y, c.isDigit = true) :
    matchSarg ("YEAR(".toList ++ (col ++ ')' :: ' ' :: (op ++ ' ' :: y))) =
      some (" ".toList ++ col ++ " ".toList ++ op ++ " DATEFROMPARTS(".toList ++ y
        ++ ", 1, 1) ".toList, []) := by
  obtain ⟨o, os, rfl⟩ : ∃ o os, op = o :: os := by
    cases op with
    | nil => exact absurd rfl hop
    | cons o os => exact ⟨o, os, rfl⟩
  have hosp : isPySpace o = false := by
    rcases hopc o (by simp) with h | h <;> rw [h] <;> decide
  have hcolw : ∀ c ∈ col, (isWordChar c || c = '.') = true := by
    intro c hc
    rcases hcolc c hc with h | h <;> simp [h]
  have hopw : ∀ c ∈ (o :: os), ((c = '>' : Bool) || (c = '=' : Bool)) = true := by
    intro c hc
    rcases hopc c hc with h | h <;> simp [h]
  obtain ⟨d, ds, hy⟩ : ∃ d ds, y = d :: ds := by
    cases y with
    | nil => simp at hy4
    | cons d ds => exact ⟨d, ds, rfl⟩
  have hclen : (col.length = 0) = False := by
    simp [List.length_eq_zero, hcol]
  have hdrop1 : ((o :: os) ++ ' ' :: y).dropWhile isPySpace = (o :: os) ++ ' ' :: y := by
    rw [List.cons_append, dropWhile_cons_stop hosp, ← List.cons_append]
  have hdrop2 : (' ' :: y).dropWhile isPySpace = y := by
    simp only [List.dropWhile_cons]
    rw [if_pos (by decide), hy]
    exact dropWhile_cons_stop (isDigit_not_space (hyd d (by simp [hy])))
  simp only [matchSarg, eatCI_refl_append,
    takeWhile_append_stop hcolw (show ((fun c => isWordChar c || c = '.') ')') = false
      from by decide),
    hclen, List.drop_left, eatChar_self,
    dropWhile_space_cons, hdrop1,
    takeWhile_append_stop hopw (show ((fun c => ((c = '>' : Bool) || (c = '=' : Bool))) ' ')
      = false from by decide),
    hdrop2, matchYearExpr_digits y hy4 hyd]
  simp

set_option maxRecDepth 16384 in
/-- C2 amended.  In the extracted WHERE clause, the Summary-Query Deriver
rewrites a comparison `YEAR(<col>) <op> <four-digit year>` into the
range-friendly ` <col> <op> DATEFROMPARTS(<year>, 1, 1) ` form exactly when
the operator is a run of the characters `>` and `=` (the source's operator
class `[>=]+`, covering `>=`, `>`, `=`); relative-year right-hand sides are
rewritten the same way, other text of the clause is left unchanged, and
comparisons with any other operator (such as `<`) are not rewritten. -/
theorem c2_sargable_amended :
    (∀ col op y : List Char, col ≠ [] → (∀ c ∈ col, isWordChar c = true ∨ c = '.') →
      op ≠ [] → (∀ c ∈ op, c = '>' ∨ c = '=') →
      y.length = 4 → (∀ c ∈ y, c.isDigit = true) →
      pySubAll matchSarg ("WHERE YEAR(".toList ++ (col ++ ')' :: ' ' :: (op ++ ' ' :: y))) =
        "WHERE  ".toList ++ col ++ (' ' :: (op ++ " DATEFROMPARTS(".toList ++ y
          ++ ", 1, 1) ".toList))) ∧
    pySubAll matchSarg
        "WHERE YEAR(e.SB_Date) >= YEAR(GETDATE()) - 2 AND YEAR(d2) < 1999 AND YEAR(d3)=2020".toList =
      "WHERE  e.SB_Date >= DATEFROMPARTS(YEAR(GETDATE()) - 2, 1, 1)  AND YEAR(d2) < 1999 AND  d3 = DATEFROMPARTS(2020, 1, 1) ".toList := by
  constructor
  · intro col op y hcol hcolc hop hopc hy4 hyd
    have hsplit : "WHERE YEAR(".toList ++ (col ++ ')' :: ' ' :: (op ++ ' ' :: y)) =
        "WHERE ".toList ++ ("YEAR(".toList ++ (col ++ ')' :: ' ' :: (op ++ ' ' :: y))) := by
      simp
    rw [hsplit,
      pySubAll_matchSarg_pre _ _ (by decide),
      pySubAll_match matchSarg_consuming
        (matchSarg_comparison col op y hcol hcolc hop hopc hy4 hyd),
      pySubAll_nil]
    simp
  · decide

/-- C2 amended witness: `>=` with a four-digit year literal. -/
theorem c2_sargable_amended_witness :
    pySubAll matchSarg ("WHERE YEAR(".toList ++ ("BE_Date".toList ++ ')' :: ' ' ::
        (">=".toList ++ ' ' :: "2024".toList))) =
      "WHERE  ".toList ++ "BE_Date".toList ++ (' ' :: (">=".toList
        ++ " DATEFROMPARTS(".toList ++ "2024".toList ++ ", 1, 1) ".toList)) :=
  c2_sargable_amended.1 "BE_Date".toList ">=".toList "2024".toList
    (by decide) (by decide) (by decide) (by decide) (by decide) (by decide)

/-! ## Claim C9 groundwork: inversion principles for the pattern eaters -/

/-- Pointwise case-insensitive matching of a keyword against consumed text. -/
def CIR (a c : Char) : Prop := eqCI a c = true

theorem forall2_mem_right {R : Char → Char → Prop} {l₁ l₂ : List Char}
    (h : List.Forall₂ R l₁ l₂) {c : Char} (hc : c ∈ l₂) : ∃ a ∈ l₁, R a c := by
  induction h with
  | nil => simp at hc
  | cons hr _ ih =>
    rcases List.mem_cons.mp hc with rfl | hc2
    · exact ⟨_, by simp, hr⟩
    · obtain ⟨a, ha, hr2⟩ := ih hc2
      exact ⟨a, by simp [ha], hr2⟩

theorem forall2_length {R : Char → Char → Prop} {l₁ l₂ : List Char}
    (h : List.Forall₂ R l₁ l₂) : l₁.length = l₂.length := by
  induction h with
  | nil => rfl
  | cons _ _ ih => simp [ih]

theorem eatCI_sound {kw s w r : List Char} (h : eatCI kw s = some (w, r)) :
    List.Forall₂ CIR kw w ∧ s = w ++ r := by
  induction kw generalizing s w r with
  | nil =>
    cases s <;> simp [eatCI] at h <;>
      · obtain ⟨rfl, rfl⟩ := h
        exact ⟨List.Forall₂.nil, rfl⟩
  | cons a as ih =>
    cases s with
    | nil => simp [eatCI] at h
    | cons b bs =>
      simp only [eatCI] at h
      split at h
      · next heq =>
        cases hrec : eatCI as bs with
        | none => rw [hrec] at h; exact absurd h (by simp)
        | some pr =>
          obtain ⟨w₁, r₁⟩ := pr
          rw [hrec] at h
          simp at h
          obtain ⟨rfl, rfl⟩ := h
          obtain ⟨hf, rfl⟩ := ih hrec
          exact ⟨List.Forall₂.cons heq hf, rfl⟩
      · exact absurd h (by simp)

theorem eatCI_complete {kw w : List Char} (h : List.Forall₂ CIR kw w) (t : List Char) :
    eatCI kw (w ++ t) = some (w, t) := by
  induction kw generalizing w with
  | nil => cases h; rfl
  | cons a as ih =>
    cases h with
    | cons hr hf =>
      rename_i b bs
      have hr2 : eqCI a b = true := hr
      simp only [List.cons_append, eatCI]
      rw [if_pos hr2]
      simp only [List.append_eq]
      rw [ih hf]

theorem eatWs1_sound {s r : List Char} (h : eatWs1 s = some r) :
    ∃ sp, s = sp ++ r ∧ sp ≠ [] ∧ ∀ c ∈ sp, isPySpace c = true := by
  cases s with
  | nil => simp [eatWs1] at h
  | cons c cs =>
    simp only [eatWs1] at h
    split at h
    · next hc =>
      simp only [Option.some.injEq] at h
      refine ⟨c :: cs.takeWhile isPySpace, ?_, by simp, ?_⟩
      · rw [← h]
        simp [List.takeWhile_append_dropWhile]
      · intro x hx
        rcases List.mem_cons.mp hx with rfl | hx2
        · exact hc
        · exact List.mem_takeWhile_imp hx2
    · exact absurd h (by simp)

theorem eatWs1_complete {sp r : List Char} (hne : sp ≠ [])
    (hsp : ∀ c ∈ sp, isPySpace c = true) (hr : r.dropWhile isPySpace = r) :
    eatWs1 (sp ++ r) = some r := by
  cases sp with
  | nil => exact absurd rfl hne
  | cons c cs =>
    simp only [List.cons_append, eatWs1, hsp c (by simp), if_true]
    rw [dropWhile_append_all (fun x hx => hsp x (by simp [hx])), hr]

theorem eatChar_sound {c : Char} {s r : List Char} (h : eatChar c s = some r) :
    s = c :: r := by
  cases s with
  | nil => simp [eatChar] at h
  | cons d ds =>
    simp only [eatChar] at h
    split at h
    · next hd => simp at h; rw [hd, h]
    · exact absurd h (by simp)

theorem dropOpt_cons_eq (c : Char) (l : List Char) : dropOpt c (c :: l) = l := by
  simp [dropOpt]

theorem dropOpt_cons_ne {c x : Char} (h : x ≠ c) (l : List Char) :
    dropOpt c (x :: l) = x :: l := by
  simp [dropOpt, h]

theorem takeWhile_mem_all {p : Char → Bool} {l : List Char} :
    ∀ c ∈ l.takeWhile p, p c = true := fun _ hc => List.mem_takeWhile_imp hc

theorem takeWhile_drop_rest {p : Char → Bool} (s : List Char) :
    s.drop (s.takeWhile p).length = s.dropWhile p := by
  induction s with
  | nil => rfl
  | cons c cs ih =>
    by_cases hc : p c
    · simp [List.takeWhile_cons, List.dropWhile_cons, hc, ih]
    · simp [List.takeWhile_cons, List.dropWhile_cons, hc]

theorem eatLitRun_sound {s g rest : List Char} (h : eatLitRun s = some (g, rest)) :
    s = g ++ '%' :: '\'' :: rest ∧ g ≠ [] ∧ ∀ c ∈ g, c ≠ '\'' := by
  simp only [eatLitRun] at h
  split at h
  · next hcond =>
    obtain ⟨hlen, hlast⟩ := hcond
    split at h
    · next rest' hdrop =>
      simp only [Option.some.injEq, Prod.mk.injEq] at h
      obtain ⟨hg, hrest⟩ := h
      subst hg
      subst hrest
      set r := s.takeWhile (fun c => (c ≠ '\'' : Bool)) with hr
      have hrne : r ≠ [] := by
        intro hx; rw [hx] at hlen; simp at hlen
      have hdw : s.dropWhile (fun c => (c ≠ '\'' : Bool)) = '\'' :: rest' := by
        rw [← takeWhile_drop_rest (p := fun c => (c ≠ '\'' : Bool)) s, ← hr, hdrop]
      have hsplit : s = r ++ '\'' :: rest' := by
        rw [← hdw, hr]
        exact (List.takeWhile_append_dropWhile _ _).symm
      have hrdec : r = r.dropLast ++ ['%'] := by
        have h1 := List.dropLast_append_getLast hrne
        rw [List.getLast?_eq_getLast r hrne] at hlast
        simp only [Option.some.injEq] at hlast
        rw [hlast] at h1
        exact h1.symm
      refine ⟨?_, ?_, ?_⟩
      · rw [hsplit]
        conv_lhs => rw [hrdec]
        simp
      · intro hx
        rw [hx] at hrdec
        simp at hrdec
        rw [hrdec] at hlen
        simp at hlen
      · intro c hc
        have hcr : c ∈ r := by
          rw [hrdec]
          exact List.mem_append_left _ hc
        have := takeWhile_mem_all (p := fun c => (c ≠ '\'' : Bool)) (l := s)
        rw [← hr] at this
        simpa using this c hcr
    · exact absurd h (by simp)
  · exact absurd h (by simp)

theorem eatLitRun_complete {g : List Char} (rest : List Char) (hne : g ≠ [])
    (hqf : ∀ c ∈ g, c ≠ '\'') :
    eatLitRun (g ++ '%' :: '\'' :: rest) = some (g, rest) := by
  have hrun : (g ++ '%' :: '\'' :: rest).takeWhile (fun c => (c ≠ '\'' : Bool)) = g ++ ['%'] := by
    have hx : g ++ '%' :: '\'' :: rest = (g ++ ['%']) ++ '\'' :: rest := by simp
    rw [hx]
    refine takeWhile_append_stop ?_ (by decide)
    intro x hx2
    rcases List.mem_append.mp hx2 with hx1 | hx1
    · simpa using hqf x hx1
    · simp at hx1
      simp [hx1]
  simp only [eatLitRun, hrun]
  rw [if_pos]
  · have hdrop : (g ++ '%' :: '\'' :: rest).drop (g ++ ['%']).length = '\'' :: rest := by
      have hx : g ++ '%' :: '\'' :: rest = (g ++ ['%']) ++ '\'' :: rest := by simp
      rw [hx, List.drop_left]
    rw [hdrop]
    simp
  · constructor
    · have : 1 ≤ g.length := by
        cases g with
        | nil => exact absurd rfl hne
        | cons a as => simp
      simp
      omega
    · simp

/-! ## C9: character-level facts -/

theorem isPySpace_cases {c : Char} (h : isPySpace c = true) :
    c = ' ' ∨ c = '\t' ∨ c = '\n' ∨ c = '\r' ∨ c = Char.ofNat 11 ∨ c = Char.ofNat 12 := by
  simpa [isPySpace, or_assoc] using h

theorem CIR_ne {a c k : Char} (h : CIR a c) (hk : eqCI a k = false) : c ≠ k := by
  intro he
  subst he
  have h2 : eqCI a c = true := h
  rw [hk] at h2
  exact absurd h2 (by simp)

theorem CIR_not_space {a c : Char} (h : CIR a c)
    (ha : ∀ x, isPySpace x = true → eqCI a x = false) : isPySpace c = false := by
  cases hx : isPySpace c
  · rfl
  · have h2 : eqCI a c = true := h
    rw [ha c hx] at h2
    exact absurd h2 (by simp)

theorem space_table_L : ∀ x, isPySpace x = true → eqCI 'L' x = false := by
  intro x hx
  rcases isPySpace_cases hx with rfl | rfl | rfl | rfl | rfl | rfl <;> decide

theorem space_table_underscore : ∀ x, isPySpace x = true → eqCI '_' x = false := by
  intro x hx
  rcases isPySpace_cases hx with rfl | rfl | rfl | rfl | rfl | rfl <;> decide

theorem eatWs1_none_of_head {c : Char} (cs : List Char) (hc : isPySpace c = false) :
    eatWs1 (c :: cs) = none := by
  simp [eatWs1, hc]

/-! ## C9: the shape of a successful product-predicate match -/

/-- The consumed text of a successful `matchProd`, captured group `g`. -/
def MShape (M g : List Char) : Prop :=
  ∃ b₁ wP nm b₂ sp₁ wL sp₂,
    M = b₁ ++ (wP ++ (nm ++ (b₂ ++ (sp₁ ++ (wL ++ (sp₂ ++ '\'' :: '%' :: (g ++ ['%', '\'']))))))) ∧
    (b₁ = [] ∨ b₁ = ['[']) ∧ List.Forall₂ CIR "Product".toList wP ∧
    (nm = [] ∨ List.Forall₂ CIR "_Name".toList nm) ∧ (b₂ = [] ∨ b₂ = [']']) ∧
    sp₁ ≠ [] ∧ (∀ c ∈ sp₁, isPySpace c = true) ∧
    List.Forall₂ CIR "LIKE".toList wL ∧
    sp₂ ≠ [] ∧ (∀ c ∈ sp₂, isPySpace c = true) ∧
    g ≠ [] ∧ (∀ c ∈ g, c ≠ '\'')

theorem matchProdTail_sound {s g rest : List Char} (h : matchProdTail s = some (g, rest)) :
    ∃ b₂ sp₁ wL sp₂,
      s = b₂ ++ (sp₁ ++ (wL ++ (sp₂ ++ '\'' :: '%' :: (g ++ '%' :: '\'' :: rest)))) ∧
      (b₂ = [] ∨ b₂ = [']']) ∧
      sp₁ ≠ [] ∧ (∀ c ∈ sp₁, isPySpace c = true) ∧
      List.Forall₂ CIR "LIKE".toList wL ∧
      sp₂ ≠ [] ∧ (∀ c ∈ sp₂, isPySpace c = true) ∧
      g ≠ [] ∧ (∀ c ∈ g, c ≠ '\'') := by
  unfold matchProdTail at h
  split at h
  · exact absurd h (by simp)
  · next s2 hws =>
    split at h
    · exact absurd h (by simp)
    · next wl s3 hlike =>
      split at h
      · exact absurd h (by simp)
      · next s4 hws2 =>
        split at h
        · exact absurd h (by simp)
        · next s5 hq =>
          split at h
          · exact absurd h (by simp)
          · next s6 hp =>
            obtain ⟨hs6, hgne, hgqf⟩ := eatLitRun_sound h
            obtain ⟨hlf, hs2⟩ := eatCI_sound hlike
            obtain ⟨sp₂, hs3, hsp2ne, hsp2⟩ := eatWs1_sound hws2
            have hs4 := eatChar_sound hq
            have hs5 := eatChar_sound hp
            rcases s with _ | ⟨c, cs⟩
            · simp [dropOpt, eatWs1] at hws
            · by_cases hc : c = ']'
              · subst hc
                rw [dropOpt_cons_eq] at hws
                obtain ⟨sp₁, hcs, hsp1ne, hsp1⟩ := eatWs1_sound hws
                refine ⟨[']'], sp₁, wl, sp₂, ?_, Or.inr rfl, hsp1ne, hsp1, hlf, hsp2ne,
                  hsp2, hgne, hgqf⟩
                simp [hcs, hs2, hs3, hs4, hs5, hs6]
              · rw [dropOpt_cons_ne hc] at hws
                obtain ⟨sp₁, hcs, hsp1ne, hsp1⟩ := eatWs1_sound hws
                refine ⟨[], sp₁, wl, sp₂, ?_, Or.inl rfl, hsp1ne, hsp1, hlf, hsp2ne,
                  hsp2, hgne, hgqf⟩
                simp [hcs, hs2, hs3, hs4, hs5, hs6]

theorem matchProdTail_complete {b₂ sp₁ wL sp₂ g : List Char} (rest : List Char)
    (hb₂ : b₂ = [] ∨ b₂ = [']'])
    (hsp1ne : sp₁ ≠ []) (hsp1 : ∀ c ∈ sp₁, isPySpace c = true)
    (hwL : List.Forall₂ CIR "LIKE".toList wL)
    (hsp2ne : sp₂ ≠ []) (hsp2 : ∀ c ∈ sp₂, isPySpace c = true)
    (hgne : g ≠ []) (hgqf : ∀ c ∈ g, c ≠ '\'') :
    matchProdTail (b₂ ++ (sp₁ ++ (wL ++ (sp₂ ++ '\'' :: '%' :: (g ++ '%' :: '\'' :: rest))))) =
      some (g, rest) := by
  obtain ⟨l₀, ls, rfl⟩ : ∃ l₀ ls, wL = l₀ :: ls := by
    cases hwL with
    | cons hr hf => exact ⟨_, _, rfl⟩
  have hl₀ : CIR 'L' l₀ := by
    cases hwL with
    | cons hr hf => exact hr
  have hl₀sp : isPySpace l₀ = false := CIR_not_space hl₀ space_table_L
  have hdrop : dropOpt ']'
      (b₂ ++ (sp₁ ++ ((l₀ :: ls) ++ (sp₂ ++ '\'' :: '%' :: (g ++ '%' :: '\'' :: rest))))) =
      sp₁ ++ ((l₀ :: ls) ++ (sp₂ ++ '\'' :: '%' :: (g ++ '%' :: '\'' :: rest))) := by
    rcases hb₂ with rfl | rfl
    · cases sp₁ with
      | nil => exact absurd rfl hsp1ne
      | cons a as =>
        simp only [List.nil_append, List.cons_append]
        apply dropOpt_cons_ne
        intro ha
        have h2 := hsp1 a (by simp)
        rw [ha] at h2
        exact absurd h2 (by decide)
    · simp only [List.cons_append, List.nil_append]
      rw [dropOpt_cons_eq]
  have hW1 : ((l₀ :: ls) ++ (sp₂ ++ '\'' :: '%' :: (g ++ '%' :: '\'' :: rest))).dropWhile isPySpace
      = (l₀ :: ls) ++ (sp₂ ++ '\'' :: '%' :: (g ++ '%' :: '\'' :: rest)) := by
    rw [List.cons_append]
    exact dropWhile_cons_stop hl₀sp
  have hE1 := eatWs1_complete hsp1ne hsp1 hW1
  have hE2 := eatCI_complete hwL (sp₂ ++ '\'' :: '%' :: (g ++ '%' :: '\'' :: rest))
  have hE3 := eatWs1_complete hsp2ne hsp2
    (@dropWhile_cons_stop isPySpace '\'' ('%' :: (g ++ '%' :: '\'' :: rest))
      (show isPySpace '\'' = false from by decide))
  unfold matchProdTail
  rw [hdrop]
  simp only [hE1, hE2, hE3, eatChar_self, eatLitRun_complete rest hgne hgqf]

theorem dropOpt_split (c : Char) (s : List Char) :
    ∃ b t, (b = [] ∨ b = [c]) ∧ s = b ++ t ∧ dropOpt c s = t := by
  cases s with
  | nil => exact ⟨[], [], Or.inl rfl, rfl, rfl⟩
  | cons x xs =>
    by_cases hx : x = c
    · subst hx
      exact ⟨[x], xs, Or.inr rfl, rfl, dropOpt_cons_eq x xs⟩
    · exact ⟨[], x :: xs, Or.inl rfl, rfl, dropOpt_cons_ne hx xs⟩

theorem matchProd_sound {s r rest : List Char} (h : matchProd s = some (r, rest)) :
    ∃ M g, s = M ++ rest ∧ MShape M g ∧ r = canonProd (normVal g) := by
  obtain ⟨b₁, s₁, hb₁, hs, hdrop⟩ := dropOpt_split '[' s
  unfold matchProd at h
  rw [hdrop] at h
  split at h
  · exact absurd h (by simp)
  · next wp r1 hprod =>
    obtain ⟨hpf, hs1⟩ := eatCI_sound hprod
    split at h
    · next g rest2 htail =>
      simp only [Option.some.injEq, Prod.mk.injEq] at h
      obtain ⟨hr, hrest⟩ := h
      subst hrest
      obtain ⟨b₂, sp₁, wl, sp₂, hr1, hb₂, hsp1ne, hsp1, hlf, hsp2ne, hsp2, hgne, hgqf⟩ :=
        matchProdTail_sound htail
      refine ⟨b₁ ++ (wp ++ ([] ++ (b₂ ++ (sp₁ ++ (wl ++ (sp₂ ++ '\'' :: '%' :: (g ++ ['%', '\'']))))))),
        g, ?_, ?_, hr.symm⟩
      · rw [hs, hs1, hr1]
        simp
      · exact ⟨b₁, wp, [], b₂, sp₁, wl, sp₂, rfl, hb₁, hpf, Or.inl rfl, hb₂, hsp1ne, hsp1,
          hlf, hsp2ne, hsp2, hgne, hgqf⟩
    · split at h
      · exact absurd h (by simp)
      · next nm r2 hname =>
        obtain ⟨hnf, hr1⟩ := eatCI_sound hname
        split at h
        · next g rest2 htail =>
          simp only [Option.some.injEq, Prod.mk.injEq] at h
          obtain ⟨hr, hrest⟩ := h
          subst hrest
          obtain ⟨b₂, sp₁, wl, sp₂, hr2, hb₂, hsp1ne, hsp1, hlf, hsp2ne, hsp2, hgne, hgqf⟩ :=
            matchProdTail_sound htail
          refine ⟨b₁ ++ (wp ++ (nm ++ (b₂ ++ (sp₁ ++ (wl ++ (sp₂ ++ '\'' :: '%' :: (g ++ ['%', '\'']))))))),
            g, ?_, ?_, hr.symm⟩
          · rw [hs, hs1, hr1, hr2]
            simp
          · exact ⟨b₁, wp, nm, b₂, sp₁, wl, sp₂, rfl, hb₁, hpf, Or.inr hnf, hb₂, hsp1ne,
              hsp1, hlf, hsp2ne, hsp2, hgne, hgqf⟩
        · exact absurd h (by simp)

theorem dropOpt_bracket (X : List Char) : dropOpt '[' (('[' :: []) ++ X) = X := by
  simp [dropOpt]

theorem matchProd_complete {M g : List Char} (hM : MShape M g) (t : List Char) :
    matchProd (M ++ t) = some (canonProd (normVal g), t) := by
  obtain ⟨b₁, wP, nm, b₂, sp₁, wL, sp₂, hMeq, hb₁, hwP, hnm, hb₂, hsp1ne, hsp1, hwL,
    hsp2ne, hsp2, hgne, hgqf⟩ := hM
  obtain ⟨p₀, ps, rfl⟩ : ∃ p₀ ps, wP = p₀ :: ps := by
    cases hwP with
    | cons hr hf => exact ⟨_, _, rfl⟩
  have hp₀ : CIR 'P' p₀ := by
    cases hwP with
    | cons hr hf => exact hr
  subst hMeq
  have hTailEq := matchProdTail_complete (g := g) t hb₂ hsp1ne hsp1 hwL hsp2ne hsp2 hgne hgqf
  have hP := fun X => eatCI_complete hwP X
  rcases hnm with rfl | hnf
  · -- no _Name part
    rcases hb₁ with rfl | rfl
    · have hD : ∀ X, dropOpt '[' ((p₀ :: ps) ++ X) = (p₀ :: ps) ++ X := by
        intro X
        rw [List.cons_append]
        exact dropOpt_cons_ne (CIR_ne hp₀ (by decide)) _
      simp only [List.nil_append, List.cons_append, List.append_assoc] at hTailEq hP hD ⊢
      simp only [matchProd, hD, hP, hTailEq]
    · simp only [List.nil_append, List.cons_append, List.append_assoc] at hTailEq hP ⊢
      have hD : ∀ X : List Char, dropOpt '[' ('[' :: X) = X := fun X => dropOpt_cons_eq _ _
      simp only [matchProd, hD, hP, hTailEq]
  · -- with _Name part
    obtain ⟨n₀, ns, rfl⟩ : ∃ n₀ ns, nm = n₀ :: ns := by
      cases hnf with
      | cons hr hf => exact ⟨_, _, rfl⟩
    have hn₀ : CIR '_' n₀ := by
      cases hnf with
      | cons hr hf => exact hr
    have hN := fun X => eatCI_complete hnf X
    have hTailNone : ∀ X : List Char, matchProdTail (n₀ :: X) = none := by
      intro X
      unfold matchProdTail
      rw [dropOpt_cons_ne (CIR_ne hn₀ (by decide)),
        eatWs1_none_of_head _ (CIR_not_space hn₀ space_table_underscore)]
    rcases hb₁ with rfl | rfl
    · have hD : ∀ X, dropOpt '[' ((p₀ :: ps) ++ X) = (p₀ :: ps) ++ X := by
        intro X
        rw [List.cons_append]
        exact dropOpt_cons_ne (CIR_ne hp₀ (by decide)) _
      simp only [List.nil_append, List.cons_append, List.append_assoc] at hTailEq hP hN hD ⊢
      simp only [matchProd, hD, hP, hTailNone, hN, hTailEq]
    · simp only [List.nil_append, List.cons_append, List.append_assoc] at hTailEq hP hN ⊢
      have hD : ∀ X : List Char, dropOpt '[' ('[' :: X) = X := fun X => dropOpt_cons_eq _ _
      simp only [matchProd, hD, hP, hTailNone, hN, hTailEq]

/-! ## C9: value normalisation facts -/

theorem toNat_ofNat_small {m : Nat} (h : m < 55296) : (Char.ofNat m).toNat = m := by
  have hv : m.isValidChar := Or.inl h
  simp only [Char.ofNat, hv, dif_pos, Char.ofNatAux, Char.toNat]
  simp [UInt32.toNat, BitVec.toNat_ofNat]

theorem toUpper_dichotomy (c : Char) :
    c.toUpper = c ∨ (97 ≤ c.toNat ∧ c.toNat ≤ 122 ∧ c.toUpper.toNat = c.toNat - 32) := by
  unfold Char.toUpper
  by_cases h : c.toNat ≥ 97 ∧ c.toNat ≤ 122
  · right
    refine ⟨h.1, h.2, ?_⟩
    rw [if_pos h]
    exact toNat_ofNat_small (by omega)
  · left
    rw [if_neg h]

theorem toUpper_fix_of_high {c : Char} (h : ¬(97 ≤ c.toNat ∧ c.toNat ≤ 122)) :
    c.toUpper = c := by
  unfold Char.toUpper
  rw [if_neg h]

theorem toUpper_quote_inv {c : Char} (h : c.toUpper = '\'') : c = '\'' := by
  rcases toUpper_dichotomy c with he | ⟨h1, h2, h3⟩
  · rw [← he, h]
  · rw [h] at h3
    have : ('\'' : Char).toNat = 39 := by decide
    omega

theorem toUpper_space_inv {c : Char} (h : c.toUpper = ' ') : c = ' ' := by
  rcases toUpper_dichotomy c with he | ⟨h1, h2, h3⟩
  · rw [← he, h]
  · rw [h] at h3
    have : (' ' : Char).toNat = 32 := by decide
    omega

theorem toUpper_idem (c : Char) : c.toUpper.toUpper = c.toUpper := by
  rcases toUpper_dichotomy c with he | ⟨h1, h2, h3⟩
  · rw [he, he]
  · apply toUpper_fix_of_high
    omega

theorem filter_map_toUpper (l : List Char) :
    (l.map Char.toUpper).filter (fun c => c ≠ ' ') =
      (l.filter (fun c => c ≠ ' ')).map Char.toUpper := by
  rw [List.filter_map]
  congr 1
  apply List.filter_congr
  intro c _
  simp only [Function.comp]
  by_cases hc : c = ' '
  · subst hc
    rw [show (' ' : Char).toUpper = ' ' from by decide]
  · have hup : c.toUpper ≠ ' ' := fun hx => hc (toUpper_space_inv hx)
    simp [hc, hup]

theorem filter_ne_space_idem (l : List Char) :
    (l.filter (fun c => c ≠ ' ')).filter (fun c => c ≠ ' ') = l.filter (fun c => c ≠ ' ') := by
  induction l with
  | nil => rfl
  | cons c cs ih =>
    by_cases hc : c = ' '
    · simp [List.filter_cons, hc, ih]
    · simp [List.filter_cons, hc, ih]

theorem normVal_idem (g : List Char) : normVal (normVal g) = normVal g := by
  unfold normVal
  rw [filter_map_toUpper, filter_ne_space_idem, List.map_map]
  apply List.map_congr_left
  intro c _
  exact toUpper_idem c

theorem normVal_qf {g : List Char} (h : ∀ c ∈ g, c ≠ '\'') :
    ∀ c ∈ normVal g, c ≠ '\'' := by
  intro c hc
  unfold normVal at hc
  obtain ⟨d, hd, rfl⟩ := List.mem_map.mp hc
  have hdg : d ∈ g := List.mem_of_mem_filter hd
  intro hq
  exact h d hdg (toUpper_quote_inv hq)

/-! ## C9: quote counting -/

theorem space_ne_quote {c : Char} (h : isPySpace c = true) : c ≠ '\'' := by
  rcases isPySpace_cases h with rfl | rfl | rfl | rfl | rfl | rfl <;> decide

theorem forall2_no_mem {kw w : List Char} (h : List.Forall₂ CIR kw w) {k : Char}
    (hk : ∀ a ∈ kw, eqCI a k = false) : k ∉ w := by
  intro hm
  obtain ⟨a, ha, hr⟩ := forall2_mem_right h hm
  have hr2 : eqCI a k = true := hr
  rw [hk a ha] at hr2
  exact absurd hr2 (by simp)

theorem MShape_split {M g : List Char} (h : MShape M g) :
    ∃ A, M = A ++ '\'' :: '%' :: (g ++ ['%', '\'']) ∧ '\'' ∉ A ∧
      (∀ c ∈ g, c ≠ '\'') ∧ g ≠ [] := by
  obtain ⟨b₁, wP, nm, b₂, sp₁, wL, sp₂, hMeq, hb₁, hwP, hnm, hb₂, hsp1ne, hsp1, hwL,
    hsp2ne, hsp2, hgne, hgqf⟩ := h
  refine ⟨b₁ ++ wP ++ nm ++ b₂ ++ sp₁ ++ wL ++ sp₂, ?_, ?_, hgqf, hgne⟩
  · rw [hMeq]
    simp [List.append_assoc]
  · intro hmem
    simp only [List.mem_append] at hmem
    rcases hmem with ((((((h1 | h2) | h3) | h4) | h5) | h6) | h7)
    · rcases hb₁ with rfl | rfl
      · simp at h1
      · simp at h1
    · exact forall2_no_mem hwP (by decide) h2
    · rcases hnm with rfl | hnf
      · simp at h3
      · exact forall2_no_mem hnf (by decide) h3
    · rcases hb₂ with rfl | rfl
      · simp at h4
      · simp at h4
    · exact space_ne_quote (hsp1 _ h5) rfl
    · exact forall2_no_mem hwL (by decide) h6
    · exact space_ne_quote (hsp2 _ h7) rfl

theorem MShape_count {M g : List Char} (h : MShape M g) : M.count '\'' = 2 := by
  obtain ⟨A, hMeq, hA, hgqf, -⟩ := MShape_split h
  have hcg : g.count '\'' = 0 := by
    rw [List.count_eq_zero]
    intro hm
    exact hgqf _ hm rfl
  have hcA : A.count '\'' = 0 := List.count_eq_zero.mpr hA
  rw [hMeq]
  simp [List.count_append, List.count_cons, hcg, hcA]

theorem match_needs_two {s r rest : List Char} (h : matchProd s = some (r, rest)) :
    2 ≤ s.count '\'' := by
  obtain ⟨M, g, hs, hM, -⟩ := matchProd_sound h
  rw [hs, List.count_append, MShape_count hM]
  omega

theorem low_quote_fixed {s : List Char} (h : s.count '\'' ≤ 1) :
    pySubAll matchProd s = s := by
  induction s with
  | nil => rfl
  | cons c cs ih =>
    have hnone : matchProd (c :: cs) = none := by
      cases hm : matchProd (c :: cs) with
      | none => rfl
      | some pr =>
        obtain ⟨r, rest⟩ := pr
        have := match_needs_two hm
        omega
    rw [pySubAll_cons_none hnone]
    congr 1
    apply ih
    have : cs.count '\'' ≤ (c :: cs).count '\'' := by
      simp [List.count_cons]
    omega

/-! ## C9: canonical replacement segments -/

theorem canon_decomp (V : List Char) :
    canonProd V = "[Product] LIKE ".toList ++ '\'' :: '%' :: (V ++ ['%', '\'']) := by
  unfold canonProd
  rw [show "[Product] LIKE '%".toList = "[Product] LIKE ".toList ++ ['\'', '%'] from rfl,
    show "%'".toList = ['%', '\''] from rfl]
  simp [List.append_assoc]

theorem canon_decomp2 (V : List Char) :
    canonProd V = ("[Product] LIKE '%".toList ++ V ++ ['%']) ++ ['\''] := by
  unfold canonProd
  rw [show "%'".toList = ['%', '\''] from rfl,
    show (['%', '\''] : List Char) = ['%'] ++ ['\''] from rfl]
  simp [List.append_assoc]

theorem forall2_CIR_refl (l : List Char) : List.Forall₂ CIR l l := by
  induction l with
  | nil => exact List.Forall₂.nil
  | cons c cs ih =>
    refine List.Forall₂.cons ?_ ih
    simp [CIR, eqCI]

theorem MShape_canon {V : List Char} (hne : V ≠ []) (hqf : ∀ c ∈ V, c ≠ '\'') :
    MShape (canonProd V) V := by
  refine ⟨['['], "Product".toList, [], [']'], [' '], "LIKE".toList, [' '], ?_,
    Or.inr rfl, forall2_CIR_refl _, Or.inl rfl, Or.inr rfl, by simp,
    by intro c hc; simp at hc; subst hc; decide, forall2_CIR_refl _, by simp,
    by intro c hc; simp at hc; subst hc; decide, hne, hqf⟩
  rw [canon_decomp]
  rfl

theorem canon_fixed {V : List Char} (hqf : ∀ c ∈ V, c ≠ '\'') (hidem : normVal V = V) :
    pySubAll matchProd (canonProd V) = canonProd V := by
  cases V with
  | nil => rfl
  | cons v vs =>
    have hM := MShape_canon (V := v :: vs) (by simp) hqf
    have hmatch := matchProd_complete hM []
    rw [List.append_nil] at hmatch
    rw [pySubAll_match matchProd_consuming hmatch, hidem, pySubAll_nil, List.append_nil]

theorem canon_length (V : List Char) :
    (canonProd V).length = V.length + 19 := by
  rw [canon_decomp]
  simp only [List.length_append, List.length_cons, List.length_nil]
  rw [show "[Product] LIKE ".toList.length = 15 from by decide]
  omega

theorem canon_trunc {V : List Char} (hqf : ∀ c ∈ V, c ≠ '\'') (hidem : normVal V = V)
    (n : Nat) :
    pySubAll matchProd ((canonProd V).take n) = (canonProd V).take n := by
  by_cases hn : (canonProd V).length ≤ n
  · rw [List.take_of_length_le hn]
    exact canon_fixed hqf hidem
  · apply low_quote_fixed
    have hC : ("[Product] LIKE '%".toList ++ V ++ ['%']).count '\'' = 1 := by
      have hcv : V.count '\'' = 0 := by
        rw [List.count_eq_zero]
        intro hm
        exact hqf _ hm rfl
    
      simp [List.count_append, hcv]
    have hlen : n ≤ ("[Product] LIKE '%".toList ++ V ++ ['%']).length := by
      have := canon_length V
      rw [canon_decomp2] at hn
      simp only [List.length_append, List.length_cons, List.length_nil] at hn ⊢
      omega
    have htake : (canonProd V).take n = ("[Product] LIKE '%".toList ++ V ++ ['%']).take n := by
      rw [canon_decomp2, List.take_append_eq_append_take]
      rw [show n - ("[Product] LIKE '%".toList ++ V ++ ['%']).length = 0 from by omega]
      simp
    rw [htake]
    calc (("[Product] LIKE '%".toList ++ V ++ ['%']).take n).count '\''
        ≤ ("[Product] LIKE '%".toList ++ V ++ ['%']).count '\'' :=
          (List.take_sublist _ _).count_le _
      _ = 1 := hC

theorem scan_copy {z Y : List Char}
    (h : ∀ i, i < z.length → matchProd (z.drop i ++ Y) = none) :
    pySubAll matchProd (z ++ Y) = z ++ pySubAll matchProd Y := by
  induction z with
  | nil => simp
  | cons c cs ih =>
    have h0 := h 0 (by simp)
    simp only [List.drop_zero, List.cons_append] at h0
    rw [List.cons_append, pySubAll_cons_none h0]
    rw [ih fun i hi => by
      have := h (i + 1) (by simp only [List.length_cons]; omega)
      simpa using this]
    rfl

theorem matchProd_none_head {c : Char} {rest : List Char} (h1 : c ≠ '[')
    (h2 : eqCI 'P' c = false) : matchProd (c :: rest) = none := by
  unfold matchProd
  rw [dropOpt_cons_ne h1]
  rw [show "Product".toList = 'P' :: "roduct".toList from rfl]
  simp [eatCI, h2]

theorem tail_bracket_none (Y : List Char) :
    matchProdTail ("] LIKE '%%'".toList ++ Y) = none := by
  have e1 : dropOpt ']' ("] LIKE '%%'".toList ++ Y) = " LIKE '%%'".toList ++ Y := by
    rw [show "] LIKE '%%'".toList ++ Y = ']' :: (" LIKE '%%'".toList ++ Y) from rfl,
      dropOpt_cons_eq]
  have e2 : eatWs1 (" LIKE '%%'".toList ++ Y) = some ("LIKE '%%'".toList ++ Y) := by
    rw [show " LIKE '%%'".toList ++ Y = ' ' :: ('L' :: ("IKE '%%'".toList ++ Y)) from rfl]
    simp [eatWs1, List.dropWhile_cons, isPySpace]
  have e3 : eatCI "LIKE".toList ("LIKE '%%'".toList ++ Y) =
      some ("LIKE".toList, " '%%'".toList ++ Y) := by
    rw [show "LIKE '%%'".toList ++ Y = "LIKE".toList ++ (" '%%'".toList ++ Y) from rfl,
      eatCI_refl_append]
  have e4 : eatWs1 (" '%%'".toList ++ Y) = some ("'%%'".toList ++ Y) := by
    rw [show " '%%'".toList ++ Y = ' ' :: ('\'' :: ("%%'".toList ++ Y)) from rfl]
    simp [eatWs1, List.dropWhile_cons, isPySpace]
  have e5 : eatChar '\'' ("'%%'".toList ++ Y) = some ("%%'".toList ++ Y) := by
    rw [show "'%%'".toList ++ Y = '\'' :: ("%%'".toList ++ Y) from rfl]
    exact eatChar_self _ _
  have e6 : eatChar '%' ("%%'".toList ++ Y) = some ("%'".toList ++ Y) := by
    rw [show "%%'".toList ++ Y = '%' :: ("%'".toList ++ Y) from rfl]
    exact eatChar_self _ _
  have e7 : eatLitRun ("%'".toList ++ Y) = none := by
    unfold eatLitRun
    rw [show "%'".toList ++ Y = '%' :: ('\'' :: Y) from rfl]
    have ht : ('%' :: '\'' :: Y).takeWhile (fun c => (c ≠ '\'' : Bool)) = ['%'] := by
      simp [List.takeWhile_cons]
    rw [ht]
    simp
  simp only [matchProdTail, e1, e2, e3, e4, e5, e6, e7]

theorem name_bracket_none (Y : List Char) :
    eatCI "_Name".toList ("] LIKE '%%'".toList ++ Y) = none := by
  rw [show "] LIKE '%%'".toList ++ Y = ']' :: (" LIKE '%%'".toList ++ Y) from rfl,
    show "_Name".toList = '_' :: "Name".toList from rfl]
  simp [eatCI, eqCI]

theorem canon_empty_none1 (Y : List Char) :
    matchProd ("Product] LIKE '%%'".toList ++ Y) = none := by
  have e0 : dropOpt '[' ("Product] LIKE '%%'".toList ++ Y) =
      "Product] LIKE '%%'".toList ++ Y := by
    rw [show "Product] LIKE '%%'".toList ++ Y = 'P' :: ("roduct] LIKE '%%'".toList ++ Y) from rfl]
    exact dropOpt_cons_ne (by decide) _
  have e1 : eatCI "Product".toList ("Product] LIKE '%%'".toList ++ Y) =
      some ("Product".toList, "] LIKE '%%'".toList ++ Y) := by
    rw [show "Product] LIKE '%%'".toList ++ Y =
      "Product".toList ++ ("] LIKE '%%'".toList ++ Y) from rfl, eatCI_refl_append]
  simp only [matchProd, e0, e1, tail_bracket_none, name_bracket_none]

theorem canon_empty_none0 (Y : List Char) :
    matchProd ("[Product] LIKE '%%'".toList ++ Y) = none := by
  have e0 : dropOpt '[' ("[Product] LIKE '%%'".toList ++ Y) =
      "Product] LIKE '%%'".toList ++ Y := by
    rw [show "[Product] LIKE '%%'".toList ++ Y =
      '[' :: ("Product] LIKE '%%'".toList ++ Y) from rfl, dropOpt_cons_eq]
  have e1 : eatCI "Product".toList ("Product] LIKE '%%'".toList ++ Y) =
      some ("Product".toList, "] LIKE '%%'".toList ++ Y) := by
    rw [show "Product] LIKE '%%'".toList ++ Y =
      "Product".toList ++ ("] LIKE '%%'".toList ++ Y) from rfl, eatCI_refl_append]
  simp only [matchProd, e0, e1, tail_bracket_none, name_bracket_none]

theorem canon_glue {V : List Char} (hqf : ∀ c ∈ V, c ≠ '\'') (hidem : normVal V = V)
    (Y : List Char) :
    pySubAll matchProd (canonProd V ++ Y) = canonProd V ++ pySubAll matchProd Y := by
  cases V with
  | cons v vs =>
    have hM := MShape_canon (V := v :: vs) (by simp) hqf
    rw [pySubAll_match matchProd_consuming (matchProd_complete hM Y), hidem]
  | nil =>
    rw [show canonProd [] = "[Product] LIKE '%%'".toList from rfl]
    apply scan_copy
    intro i hi
    rw [show ("[Product] LIKE '%%'".toList : List Char).length = 19 from by decide] at hi
    interval_cases i
    · exact canon_empty_none0 Y
    · exact canon_empty_none1 Y
    all_goals exact matchProd_none_head (by decide) (by decide)

/-! ## C9: structure of the scan output -/

theorem scan_decomp (cs : List Char) :
    pySubAll matchProd cs = cs ∨
    ∃ v M g rest, cs = v ++ (M ++ rest) ∧ MShape M g ∧
      pySubAll matchProd cs = v ++ (canonProd (normVal g) ++ pySubAll matchProd rest) := by
  induction cs with
  | nil => left; rfl
  | cons c cs ih =>
    cases hm : matchProd (c :: cs) with
    | some pr =>
      obtain ⟨r, rest⟩ := pr
      obtain ⟨M, g, hseq, hMs, hr⟩ := matchProd_sound hm
      right
      refine ⟨[], M, g, rest, by simpa using hseq, hMs, ?_⟩
      rw [pySubAll_match matchProd_consuming hm, hr]
      simp
    | none =>
      rcases ih with h1 | ⟨v, M, g, rest, hcs, hMs, hscan⟩
      · left
        rw [pySubAll_cons_none hm, h1]
      · right
        refine ⟨c :: v, M, g, rest, by rw [hcs]; rfl, hMs, ?_⟩
        rw [pySubAll_cons_none hm, hscan]
        rfl

theorem getLast?_append_right {v w : List Char} (hw : w ≠ []) :
    (v ++ w).getLast? = w.getLast? := by
  rw [List.getLast?_append]
  cases hW : w.getLast? with
  | none =>
    exact absurd (List.getLast?_eq_none_iff.mp hW) hw
  | some a => rfl

theorem MShape_tail_two {M g : List Char} (h : MShape M g) :
    ∃ M₀, M = M₀ ++ ['%', '\''] ∧ M₀.count '\'' = 1 := by
  obtain ⟨A, hMeq, hA, hgqf, -⟩ := MShape_split h
  refine ⟨A ++ ('\'' :: '%' :: g), ?_, ?_⟩
  · rw [hMeq]
    simp
  · have hcg : g.count '\'' = 0 := by
      rw [List.count_eq_zero]
      intro hmm
      exact hgqf _ hmm rfl
    have hcA : A.count '\'' = 0 := List.count_eq_zero.mpr hA
    simp [List.count_append, List.count_cons, hcg, hcA]

theorem canon_count (V : List Char) (hqf : ∀ c ∈ V, c ≠ '\'') :
    (canonProd V).count '\'' = 2 := by
  have hcv : V.count '\'' = 0 := by
    rw [List.count_eq_zero]
    intro hm
    exact hqf _ hm rfl
  rw [canon_decomp]
  simp [List.count_append, List.count_cons, hcv]

theorem unique_quote_split {a₁ b₁ a₂ b₂ : List Char}
    (h : a₁ ++ '\'' :: b₁ = a₂ ++ '\'' :: b₂) (h₁ : '\'' ∉ a₁) (h₂ : '\'' ∉ a₂) :
    a₁ = a₂ ∧ b₁ = b₂ := by
  induction a₁ generalizing a₂ with
  | nil =>
    cases a₂ with
    | nil =>
      simp at h
      simp [h]
    | cons y ys =>
      simp only [List.nil_append, List.cons_append, List.cons.injEq] at h
      exact absurd (by simp [← h.1]) h₂
  | cons x xs ih =>
    cases a₂ with
    | nil =>
      simp only [List.nil_append, List.cons_append, List.cons.injEq] at h
      exact absurd (by simp [h.1]) h₁
    | cons y ys =>
      simp only [List.cons_append, List.cons.injEq] at h
      obtain ⟨rfl, h2⟩ := h
      have := ih h2 (fun hx => h₁ (by simp [hx])) (fun hx => h₂ (by simp [hx]))
      exact ⟨by rw [this.1], this.2⟩

theorem forall2_concat_right {R : Char → Char → Prop} {kw₀ : List Char} {a : Char}
    {w : List Char} (h : List.Forall₂ R (kw₀ ++ [a]) w) :
    ∃ w₀ b, w = w₀ ++ [b] ∧ R a b := by
  induction kw₀ generalizing w with
  | nil =>
    cases h with
    | cons hr hf =>
      cases hf
      exact ⟨[], _, rfl, hr⟩
  | cons k ks ih =>
    cases h with
    | cons hr hf =>
      obtain ⟨w₀, b, rfl, hb⟩ := ih hf
      exact ⟨_ :: w₀, b, rfl, hb⟩

theorem space_run_single {X Y₀ sp : List Char} {e : Char}
    (h : X ++ sp = (Y₀ ++ [e]) ++ [' ']) (hne : sp ≠ [])
    (hsp : ∀ c ∈ sp, isPySpace c = true) (he : isPySpace e = false) :
    sp = [' '] ∧ X = Y₀ ++ [e] := by
  obtain ⟨sp₀, a, rfl⟩ : ∃ sp₀ a, sp = sp₀ ++ [a] := by
    cases hsp' : sp.reverse with
    | nil => simp at hsp'; exact absurd hsp' hne
    | cons a as =>
      refine ⟨as.reverse, a, ?_⟩
      rw [← List.reverse_reverse sp, hsp']
      simp
  by_cases hsp₀ : sp₀ = []
  · subst hsp₀
    simp only [List.nil_append] at h ⊢
    have h2 : (X ++ [a]) = (Y₀ ++ [e]) ++ [' '] := by simpa using h
    have h3 := List.append_inj' h2 (by simp)
    simp at h3
    exact ⟨by simp [h3.2], h3.1⟩
  · exfalso
    -- sp has ≥ 2 elements; compare second-to-last characters
    obtain ⟨sp₁, b, rfl⟩ : ∃ sp₁ b, sp₀ = sp₁ ++ [b] := by
      cases hsp' : sp₀.reverse with
      | nil => simp at hsp'; exact absurd hsp' hsp₀
      | cons b bs =>
        refine ⟨bs.reverse, b, ?_⟩
        rw [← List.reverse_reverse sp₀, hsp']
        simp
    have h2 : (X ++ sp₁ ++ [b]) ++ [a] = (Y₀ ++ [e]) ++ [' '] := by
      rw [← h]
      simp
    have h3 := List.append_inj' h2 (by simp)
    obtain ⟨h4, -⟩ := h3
    have h5 := List.append_inj' h4 (by simp)
    have hb : isPySpace b = true := hsp b (by simp)
    have hbe : b = e := by simpa using h5.2
    rw [hbe] at hb
    rw [hb] at he
    exact absurd he (by simp)

theorem parts_no_quote {b₁ wP nm b₂ sp₁ wL sp₂ : List Char}
    (hb₁ : b₁ = [] ∨ b₁ = ['['])
    (hwP : List.Forall₂ CIR "Product".toList wP)
    (hnm : nm = [] ∨ List.Forall₂ CIR "_Name".toList nm)
    (hb₂ : b₂ = [] ∨ b₂ = [']'])
    (hsp1 : ∀ c ∈ sp₁, isPySpace c = true)
    (hwL : List.Forall₂ CIR "LIKE".toList wL)
    (hsp2 : ∀ c ∈ sp₂, isPySpace c = true) :
    '\'' ∉ b₁ ++ wP ++ nm ++ b₂ ++ sp₁ ++ wL ++ sp₂ := by
  intro hmem
  simp only [List.mem_append] at hmem
  rcases hmem with ((((((h1 | h2) | h3) | h4) | h5) | h6) | h7)
  · rcases hb₁ with rfl | rfl
    · simp at h1
    · simp at h1
  · exact forall2_no_mem hwP (by decide) h2
  · rcases hnm with rfl | hnf
    · simp at h3
    · exact forall2_no_mem hnf (by decide) h3
  · rcases hb₂ with rfl | rfl
    · simp at h4
    · simp at h4
  · exact space_ne_quote (hsp1 _ h5) rfl
  · exact forall2_no_mem hwL (by decide) h6
  · exact space_ne_quote (hsp2 _ h7) rfl

theorem no_full_overlap {v V M g : List Char} (hv : v ≠ [])
    (hM : MShape M g) (heq : M = v ++ canonProd V) : False := by
  obtain ⟨b₁, wP, nm, b₂, sp₁, wL, sp₂, hMeq, hb₁, hwP, hnm, hb₂, hsp1ne, hsp1, hwL,
    hsp2ne, hsp2, hgne, hgqf⟩ := hM
  have hA'qf : '\'' ∉ b₁ ++ wP ++ nm ++ b₂ ++ sp₁ ++ wL ++ sp₂ :=
    parts_no_quote hb₁ hwP hnm hb₂ hsp1 hwL hsp2
  have E0 : (b₁ ++ wP ++ nm ++ b₂ ++ sp₁ ++ wL ++ sp₂) ++ '\'' :: ('%' :: (g ++ ['%', '\''])) =
      (v ++ "[Product] LIKE ".toList) ++ '\'' :: ('%' :: (V ++ ['%', '\''])) := by
    have h1 : (b₁ ++ wP ++ nm ++ b₂ ++ sp₁ ++ wL ++ sp₂) ++ '\'' :: ('%' :: (g ++ ['%', '\''])) = M := by
      rw [hMeq]
      simp [List.append_assoc]
    have h2 : M = (v ++ "[Product] LIKE ".toList) ++ '\'' :: ('%' :: (V ++ ['%', '\''])) := by
      rw [heq, canon_decomp]
      simp [List.append_assoc]
    rw [h1, h2]
  have hcg : g.count '\'' = 0 := List.count_eq_zero.mpr (fun hm => hgqf _ hm rfl)
  have hcA : (b₁ ++ wP ++ nm ++ b₂ ++ sp₁ ++ wL ++ sp₂).count '\'' = 0 :=
    List.count_eq_zero.mpr hA'qf
  have hPq : ("[Product] LIKE ".toList).count '\'' = 0 := by decide
  have hcnt := congrArg (List.count '\'') E0
  simp only [List.count_append, List.count_cons, hcg, hcA, hPq] at hcnt
  simp at hcnt
  have hvq : '\'' ∉ v := by
    rw [← List.count_eq_zero]
    omega
  have hsplit := unique_quote_split E0 hA'qf (by
    intro hmm
    rcases List.mem_append.mp hmm with hx | hx
    · exact hvq hx
    · revert hx
      decide)
  obtain ⟨hA'eq, -⟩ := hsplit
  have hPsplit : v ++ "[Product] LIKE ".toList =
      ((v ++ "[Product] LIK".toList) ++ ['E']) ++ [' '] := by
    rw [show "[Product] LIKE ".toList = ("[Product] LIK".toList ++ ['E']) ++ [' '] from rfl]
    simp [List.append_assoc]
  have hstep1 := space_run_single (hA'eq.trans hPsplit) hsp2ne hsp2 (by decide)
  obtain ⟨-, hstep1b⟩ := hstep1
  have h2lit : (v ++ "[Product] LIK".toList) ++ ['E'] =
      (v ++ "[Product] ".toList) ++ "LIKE".toList := by
    have hl : ("[Product] LIK".toList ++ ['E'] : List Char) =
        "[Product] ".toList ++ "LIKE".toList := rfl
    simp only [List.append_assoc]
    rw [hl]
  have hstep2 := List.append_inj' (hstep1b.trans h2lit) (forall2_length hwL).symm
  obtain ⟨hstep2a, -⟩ := hstep2
  have h3lit : v ++ "[Product] ".toList = ((v ++ "[Product".toList) ++ [']']) ++ [' '] := by
    rw [show "[Product] ".toList = ("[Product".toList ++ [']']) ++ [' '] from rfl]
    simp [List.append_assoc]
  have hstep3 := space_run_single (hstep2a.trans h3lit) hsp1ne hsp1 (by decide)
  obtain ⟨-, hstep3b⟩ := hstep3
  have hwP' : List.Forall₂ CIR ("Produc".toList ++ ['t']) wP := hwP
  have hnmLast : ∀ (hnf : List.Forall₂ CIR "_Name".toList nm),
      ∃ n₀ ec, nm = n₀ ++ [ec] ∧ CIR 'e' ec := by
    intro hnf
    exact @forall2_concat_right CIR ("_Nam".toList) 'e' nm hnf
  rcases hb₂ with rfl | rfl
  · simp only [List.append_nil] at hstep3b
    rcases hnm with rfl | hnf
    · simp only [List.append_nil] at hstep3b
      obtain ⟨w₀, tc, hwPeq, htc⟩ := forall2_concat_right hwP'
      rw [hwPeq] at hstep3b
      have hx : (b₁ ++ w₀) ++ [tc] = (v ++ "[Product".toList) ++ [']'] := by
        rw [← hstep3b]
        simp [List.append_assoc]
      have := List.append_inj' hx (by simp)
      have htcv : tc = ']' := by simpa using this.2
      exact CIR_ne htc (by decide) htcv
    · obtain ⟨n₀, ec, hnmEq, hec⟩ := hnmLast hnf
      rw [hnmEq] at hstep3b
      have hx : (b₁ ++ wP ++ n₀) ++ [ec] = (v ++ "[Product".toList) ++ [']'] := by
        rw [← hstep3b]
        simp [List.append_assoc]
      have := List.append_inj' hx (by simp)
      have hecv : ec = ']' := by simpa using this.2
      exact CIR_ne hec (by decide) hecv
  · have hx := List.append_inj' hstep3b (by simp)
    obtain ⟨hx1, -⟩ := hx
    rcases hnm with rfl | hnf
    · simp only [List.append_nil] at hx1
      have hlit : v ++ "[Product".toList = (v ++ ['[']) ++ "Product".toList := by
        rw [show "[Product".toList = ['['] ++ "Product".toList from rfl]
        simp [List.append_assoc]
      have hy := List.append_inj' (hx1.trans hlit) (forall2_length hwP).symm
      obtain ⟨hy1, -⟩ := hy
      rcases hb₁ with rfl | rfl
      · simp at hy1
      · have := congrArg List.length hy1
        simp at this
        exact absurd this hv
    · obtain ⟨n₀, ec, hnmEq, hec⟩ := hnmLast hnf
      rw [hnmEq] at hx1
      have hlit : v ++ "[Product".toList = (v ++ "[Produc".toList) ++ ['t'] := by
        rw [show "[Product".toList = "[Produc".toList ++ ['t'] from rfl]
        simp [List.append_assoc]
      have hz : (b₁ ++ wP ++ n₀) ++ [ec] = (v ++ "[Produc".toList) ++ ['t'] := by
        have hy : b₁ ++ wP ++ (n₀ ++ [ec]) = v ++ "[Produc".toList ++ ['t'] := hx1.trans hlit
        rw [← hy]
        simp [List.append_assoc]
      have := List.append_inj' (hz.trans rfl) (by simp)
      have hecv : ec = 't' := by simpa using this.2
      exact CIR_ne hec (by decide) hecv

theorem blocked {v V T r rest : List Char} (hv : v ≠ [])
    (hVqf : ∀ c ∈ V, c ≠ '\'')
    (h : matchProd (v ++ (canonProd V ++ T)) = some (r, rest)) :
    ∃ M v2 g, v = M ++ v2 ∧ MShape M g ∧ r = canonProd (normVal g) ∧
      rest = v2 ++ (canonProd V ++ T) := by
  obtain ⟨M, g, hs, hM, hr⟩ := matchProd_sound h
  by_cases hle : M.length ≤ v.length
  · -- the consumed text is a prefix of the verbatim part
    have htake : v.take M.length = M := by
      have h1 := congrArg (List.take M.length) hs
      rw [List.take_append_eq_append_take,
        show M.length - v.length = 0 from by omega,
        List.take_zero, List.append_nil, List.take_left] at h1
      exact h1
    have hdrop : rest = v.drop M.length ++ (canonProd V ++ T) := by
      have h2 := congrArg (List.drop M.length) hs
      rw [List.drop_append_eq_append_drop,
        show M.length - v.length = 0 from by omega,
        List.drop_zero, List.drop_left] at h2
      exact h2.symm
    refine ⟨M, v.drop M.length, g, ?_, hM, hr, hdrop⟩
    conv_lhs => rw [← List.take_append_drop M.length v]
    rw [htake]
  · -- the consumed text would have to reach into the canonical segment: impossible
    exfalso
    push_neg at hle
    obtain ⟨k, hkdef⟩ : ∃ k, M.length = v.length + k := ⟨M.length - v.length, by omega⟩
    have hk1 : 1 ≤ k := by omega
    have hXlen : (canonProd V ++ T).length = (canonProd V).length + T.length := by simp
    have hkX : k ≤ (canonProd V ++ T).length := by
      have := congrArg List.length hs
      simp only [List.length_append] at this
      omega
    have hMw : M = v ++ (canonProd V ++ T).take k := by
      have h1 : (v ++ (canonProd V ++ T)).take M.length = M := by
        conv_rhs => rw [← List.take_left M rest, ← hs]
      rw [List.take_append_eq_append_take, List.take_of_length_le (by omega),
        show M.length - v.length = k from by omega] at h1
      exact h1.symm
    have hClen : (canonProd V).length = V.length + 19 := canon_length V
    have hCdec : canonProd V = "[Product] LIKE ".toList ++ '\'' :: ('%' :: (V ++ ['%', '\''])) :=
      canon_decomp V
    obtain ⟨M₀, hM₀, hM₀c⟩ := MShape_tail_two hM
    have hMlast : M.getLast? = some '\'' := by
      rw [hM₀, getLast?_append_right (by simp)]
      rfl
    have hlit15 : ("[Product] LIKE ".toList : List Char).length = 15 := by decide
    by_cases hk15 : k ≤ 15
    · have hw : (canonProd V ++ T).take k = ("[Product] LIKE ".toList).take k := by
        rw [hCdec, List.append_assoc, List.take_append_eq_append_take,
          show k - ("[Product] LIKE ".toList : List Char).length = 0 from by omega]
        simp
      have hwne : (canonProd V ++ T).take k ≠ [] := by
        intro hh
        have := congrArg List.length hh
        simp only [List.length_take, List.length_nil] at this
        omega
      have hlastw : ((canonProd V ++ T).take k).getLast? = some '\'' := by
        rw [← getLast?_append_right hwne, ← hMw, hMlast]
      rw [hw] at hlastw
      have hmemq : '\'' ∈ ("[Product] LIKE ".toList : List Char) :=
        (List.take_sublist _ _).mem (List.mem_of_mem_getLast? hlastw)
      exact absurd hmemq (by decide)
    by_cases hk16 : k = 16
    · have hw16 : (canonProd V ++ T).take k = "[Product] LIKE ".toList ++ ['\''] := by
        rw [hCdec, List.append_assoc, List.take_append_eq_append_take,
          List.take_of_length_le (by rw [hlit15]; omega), hlit15, hk16]
        rfl
      have hMM : (v ++ "[Product] LIKE ".toList) ++ ['\''] = (M₀ ++ ['%']) ++ ['\''] := by
        rw [List.append_assoc, ← hw16, ← hMw, hM₀]
        simp
      have h2 := List.append_inj' hMM (by simp)
      have hlast2 : (v ++ "[Product] LIKE ".toList).getLast? = (M₀ ++ ['%']).getLast? := by
        rw [h2.1]
      rw [getLast?_append_right (by decide), getLast?_append_right (by simp)] at hlast2
      simp at hlast2
    by_cases hkC1 : k ≤ (canonProd V).length - 1
    · have hk17 : 17 ≤ k := by omega
      have hXd2 : canonProd V ++ T =
          ("[Product] LIKE ".toList ++ ['\'']) ++ (('%' :: (V ++ ['%'])) ++ ('\'' :: T)) := by
        rw [hCdec]
        simp [List.append_assoc]
      have hA1len : ("[Product] LIKE ".toList ++ ['\''] : List Char).length = 16 := by decide
      have hA2len : ('%' :: (V ++ ['%']) : List Char).length = V.length + 2 := by simp
      have hw : (canonProd V ++ T).take k =
          ("[Product] LIKE ".toList ++ ['\'']) ++ ('%' :: (V ++ ['%'])).take (k - 16) := by
        rw [hXd2, List.take_append_eq_append_take,
          List.take_of_length_le (by rw [hA1len]; omega), hA1len]
        congr 1
        rw [List.take_append_eq_append_take, hA2len,
          show k - 16 - (V.length + 2) = 0 from by omega]
        simp
      have hune : ('%' :: (V ++ ['%'])).take (k - 16) ≠ [] := by
        intro hh
        have := congrArg List.length hh
        simp only [List.length_take, List.length_nil, hA2len] at this
        omega
      have hwne : (canonProd V ++ T).take k ≠ [] := by
        rw [hw]
        simp
      have hlastw : ((canonProd V ++ T).take k).getLast? = some '\'' := by
        rw [← getLast?_append_right hwne, ← hMw, hMlast]
      rw [hw, getLast?_append_right hune] at hlastw
      have hmemq : '\'' ∈ ('%' :: (V ++ ['%']) : List Char) :=
        (List.take_sublist _ _).mem (List.mem_of_mem_getLast? hlastw)
      simp only [List.mem_cons, List.mem_append] at hmemq
      rcases hmemq with hq | hq | hq
      · exact absurd hq (by decide)
      · exact hVqf _ hq rfl
      · simp at hq
    by_cases hkC : k = (canonProd V).length
    · have hMfull : M = v ++ canonProd V := by
        rw [hMw, hkC, List.take_append_eq_append_take, List.take_length, Nat.sub_self]
        simp
      exact no_full_overlap hv hM hMfull
    · have hkgt : (canonProd V).length < k := by omega
      have hw : (canonProd V ++ T).take k = canonProd V ++ T.take (k - (canonProd V).length) := by
        rw [List.take_append_eq_append_take, List.take_of_length_le (by omega)]
      have hw'ne : T.take (k - (canonProd V).length) ≠ [] := by
        intro hh
        have := congrArg List.length hh
        simp only [List.length_take, List.length_nil] at this
        omega
      have hcnt := congrArg (List.count '\'') (by rw [hMw, hw] :
        M = v ++ (canonProd V ++ T.take (k - (canonProd V).length)))
      rw [MShape_count hM] at hcnt
      simp only [List.count_append, canon_count V hVqf] at hcnt
      have hw'q : (T.take (k - (canonProd V).length)).count '\'' = 0 := by omega
      have hlastw : (canonProd V ++ T.take (k - (canonProd V).length)).getLast? = some '\'' := by
        rw [← getLast?_append_right (by simp [hw'ne] : canonProd V ++ T.take (k - (canonProd V).length) ≠ []), ← hw, ← hMw, hMlast]
      rw [getLast?_append_right hw'ne] at hlastw
      have hmemq : '\'' ∈ T.take (k - (canonProd V).length) :=
        List.mem_of_mem_getLast? hlastw
      rw [List.count_eq_zero] at hw'q
      exact hw'q hmemq

/-! ## C9: every prefix of the substitution output is a fixed point -/

theorem scan_take_fixed : ∀ (N : Nat) (c : List Char), c.length ≤ N → ∀ n,
    pySubAll matchProd ((pySubAll matchProd c).take n) = (pySubAll matchProd c).take n := by
  intro N
  induction N with
  | zero =>
    intro c hc n
    have : c = [] := List.eq_nil_of_length_eq_zero (Nat.le_zero.mp hc)
    subst this
    simp [pySubAll_nil]
  | succ N ih =>
    intro c hc n
    cases c with
    | nil => simp [pySubAll_nil]
    | cons ch cs =>
      cases hm : matchProd (ch :: cs) with
      | some pr =>
        obtain ⟨r, rest⟩ := pr
        obtain ⟨M, g, hs, hMs, hrr⟩ := matchProd_sound hm
        have hrlen : rest.length ≤ N := by
          have := matchProd_consuming _ _ _ hm
          simp only [List.length_cons] at this hc
          omega
        have hscan : pySubAll matchProd (ch :: cs) =
            canonProd (normVal g) ++ pySubAll matchProd rest := by
          rw [pySubAll_match matchProd_consuming hm, hrr]
        have hgqf : ∀ x ∈ g, x ≠ '\'' := by
          obtain ⟨A, -, -, hq, -⟩ := MShape_split hMs
          exact hq
        have hVqf : ∀ x ∈ normVal g, x ≠ '\'' := normVal_qf hgqf
        have hVidem : normVal (normVal g) = normVal g := normVal_idem g
        rw [hscan]
        by_cases hn : n ≤ (canonProd (normVal g)).length
        · rw [List.take_append_eq_append_take,
            show n - (canonProd (normVal g)).length = 0 from by omega,
            List.take_zero, List.append_nil]
          exact canon_trunc hVqf hVidem n
        · rw [List.take_append_eq_append_take, List.take_of_length_le (by omega)]
          rw [canon_glue hVqf hVidem]
          congr 1
          exact ih rest hrlen _
      | none =>
        rw [pySubAll_cons_none hm]
        cases n with
        | zero => rfl
        | succ n =>
          rw [List.take_succ_cons]
          have hcs : cs.length ≤ N := by
            simp only [List.length_cons] at hc
            omega
          have hnone : matchProd (ch :: (pySubAll matchProd cs).take n) = none := by
            cases hm2 : matchProd (ch :: (pySubAll matchProd cs).take n) with
            | none => rfl
            | some pr =>
              exfalso
              obtain ⟨r2, rest2⟩ := pr
              obtain ⟨M2, g2, hs2, hM2, hr2⟩ := matchProd_sound hm2
              have hext : matchProd (ch :: pySubAll matchProd cs) =
                  some (r2, rest2 ++ (pySubAll matchProd cs).drop n) := by
                have hfull : ch :: pySubAll matchProd cs =
                    M2 ++ (rest2 ++ (pySubAll matchProd cs).drop n) := by
                  conv_lhs => rw [← List.take_append_drop n (pySubAll matchProd cs)]
                  rw [show ch :: ((pySubAll matchProd cs).take n ++
                      (pySubAll matchProd cs).drop n) =
                    (ch :: (pySubAll matchProd cs).take n) ++
                      (pySubAll matchProd cs).drop n from rfl, hs2]
                  simp [List.append_assoc]
                rw [hfull, hr2]
                exact matchProd_complete hM2 _
              rcases scan_decomp cs with hid | ⟨v1, Mc, gc, restc, hcs_eq, hMcs, hIeq⟩
              · rw [hid] at hext
                rw [hm] at hext
                exact absurd hext (by simp)
              · rw [hIeq] at hext
                rw [show ch :: (v1 ++ (canonProd (normVal gc) ++ pySubAll matchProd restc)) =
                  (ch :: v1) ++ (canonProd (normVal gc) ++ pySubAll matchProd restc)
                  from rfl] at hext
                have hgcqf : ∀ x ∈ normVal gc, x ≠ '\'' := by
                  obtain ⟨A, -, -, hq, -⟩ := MShape_split hMcs
                  exact normVal_qf hq
                obtain ⟨M3, v2, g3, hvsplit, hM3, hr3, hrest3⟩ :=
                  blocked (by simp) hgcqf hext
                have hcseq : ch :: cs = M3 ++ (v2 ++ (Mc ++ restc)) := by
                  rw [hcs_eq,
                    show ch :: (v1 ++ (Mc ++ restc)) = (ch :: v1) ++ (Mc ++ restc) from rfl,
                    hvsplit]
                  simp [List.append_assoc]
                have hcontra : matchProd (ch :: cs) =
                    some (canonProd (normVal g3), v2 ++ (Mc ++ restc)) := by
                  rw [hcseq]
                  exact matchProd_complete hM3 _
                rw [hm] at hcontra
                exact absurd hcontra (by simp)
          rw [pySubAll_cons_none hnone]
          congr 1
          exact ih cs hcs n

/-! ## C9: the WHERE-clause locator under tail replacement -/

/-- The character immediately preceding the end of `prev ++ p`. -/
def lastOr (prev : Option Char) (p : List Char) : Option Char :=
  match p.getLast? with
  | some c => some c
  | none => prev

theorem lastOr_cons (prev : Option Char) (c : Char) (p : List Char) :
    lastOr prev (c :: p) = lastOr (some c) p := by
  cases p with
  | nil => rfl
  | cons x xs =>
    unfold lastOr
    rw [List.getLast?_cons_cons]
    cases hx : (x :: xs).getLast? with
    | none =>
      exact absurd (List.getLast?_eq_none_iff.mp hx) (by simp)
    | some a => rfl

theorem splitWordCI_some_props {kw : List Char} {prev : Option Char} {s p w r : List Char}
    (h : splitWordCI kw prev s = some (p, w, r)) :
    eatCI kw (w ++ r) = some (w, r) ∧ headBoundary r = true ∧
      prevBoundary (lastOr prev p) = true := by
  induction s generalizing prev p w r with
  | nil => simp [splitWordCI] at h
  | cons c cs ih =>
    simp only [splitWordCI] at h
    split at h
    · next w' r' heat =>
      have hpb : prevBoundary prev = true := by
        by_cases hx : prevBoundary prev = true
        · exact hx
        · rw [if_neg hx] at heat
          exact absurd heat (by simp)
      have heat' : eatCI kw (c :: cs) = some (w', r') := by
        rw [if_pos hpb] at heat
        exact heat
      split at h
      · next hhb =>
        simp only [Option.some.injEq, Prod.mk.injEq] at h
        obtain ⟨rfl, rfl, rfl⟩ := h
        refine ⟨?_, hhb, ?_⟩
        · rw [eatCI_append heat']
          exact heat'
        · simpa [lastOr] using hpb
      · cases hrec : splitWordCI kw (some c) cs with
        | none => rw [hrec] at h; exact absurd h (by simp)
        | some tr =>
          obtain ⟨p', w'', r''⟩ := tr
          rw [hrec] at h
          simp only [Option.some.injEq, Prod.mk.injEq] at h
          obtain ⟨rfl, rfl, rfl⟩ := h
          obtain ⟨h1, h2, h3⟩ := ih hrec
          exact ⟨h1, h2, by rwa [lastOr_cons]⟩
    · cases hrec : splitWordCI kw (some c) cs with
      | none => rw [hrec] at h; exact absurd h (by simp)
      | some tr =>
        obtain ⟨p', w'', r''⟩ := tr
        rw [hrec] at h
        simp only [Option.some.injEq, Prod.mk.injEq] at h
        obtain ⟨rfl, rfl, rfl⟩ := h
        obtain ⟨h1, h2, h3⟩ := ih hrec
        exact ⟨h1, h2, by rwa [lastOr_cons]⟩

theorem eatCI_none_transfer {kw a b b₂ : List Char} (hlen : kw.length ≤ a.length)
    (h : eatCI kw (a ++ b) = none) : eatCI kw (a ++ b₂) = none := by
  induction kw generalizing a with
  | nil => simp [eatCI] at h
  | cons k ks ih =>
    cases a with
    | nil => simp at hlen
    | cons x xs =>
      simp only [List.cons_append, eatCI, List.append_eq] at h ⊢
      by_cases hx : eqCI k x = true
      · rw [if_pos hx] at h ⊢
        cases hr : eatCI ks (xs ++ b) with
        | some pr =>
          rw [hr] at h
          obtain ⟨w1, r1⟩ := pr
          simp at h
        | none =>
          have hlen2 : ks.length ≤ xs.length := by
            simp only [List.length_cons] at hlen
            omega
          rw [ih hlen2 hr]
      · rw [if_neg hx] at h ⊢

theorem splitWordCI_replay {kw : List Char} (hkw : kw ≠ []) {prev : Option Char}
    {p w r r₂ : List Char}
    (h : splitWordCI kw prev (p ++ w ++ r) = some (p, w, r))
    (hb : headBoundary r₂ = true) :
    splitWordCI kw prev (p ++ w ++ r₂) = some (p, w, r₂) := by
  induction p generalizing prev with
  | nil =>
    simp only [List.nil_append] at h ⊢
    obtain ⟨heat, hhb, hpb⟩ := splitWordCI_some_props h
    have hf := (eatCI_sound heat).1
    have hwlen : kw.length = w.length := forall2_length hf
    obtain ⟨c0, w0, rfl⟩ : ∃ c0 w0, w = c0 :: w0 := by
      cases w with
      | nil =>
        exfalso
        apply hkw
        apply List.eq_nil_of_length_eq_zero
        simpa using hwlen
      | cons c0 w0 => exact ⟨c0, w0, rfl⟩
    have hpb' : prevBoundary prev = true := by simpa [lastOr] using hpb
    have hE := eatCI_complete hf r₂
    simp only [List.cons_append] at hE
    simp only [List.cons_append, List.append_eq, splitWordCI, hpb', if_true, hE, hb]
  | cons c p' ih =>
    have h' : splitWordCI kw prev (c :: (p' ++ w ++ r)) = some (c :: p', w, r) := by
      rw [show c :: (p' ++ w ++ r) = (c :: p') ++ w ++ r from by simp]
      exact h
    rw [show (c :: p') ++ w ++ r₂ = c :: (p' ++ w ++ r₂) from by simp]
    obtain ⟨heat0, hhb0, hpb0⟩ := splitWordCI_some_props h
    have hf0 := (eatCI_sound heat0).1
    have hwlen : kw.length = w.length := forall2_length hf0
    simp only [splitWordCI] at h' ⊢
    split at h'
    · next w₀ r₀ heat =>
      have hpb : prevBoundary prev = true := by
        by_cases hx : prevBoundary prev = true
        · exact hx
        · rw [if_neg hx] at heat
          exact absurd heat (by simp)
      have heat' : eatCI kw (c :: (p' ++ w ++ r)) = some (w₀, r₀) := by
        rw [if_pos hpb] at heat
        exact heat
      split at h'
      · simp at h'
      · next hhbf =>
        have hhbf' : headBoundary r₀ = false := by
          cases hx : headBoundary r₀ with
          | false => rfl
          | true => rw [hx] at hhbf; exact absurd rfl hhbf
        obtain ⟨hf₀, hseq⟩ := eatCI_sound heat'
        have hw₀len : w₀.length = kw.length := (forall2_length hf₀).symm
        have hseq' : (c :: (p' ++ w)) ++ r = w₀ ++ r₀ := by
          rw [← hseq]
          simp
        have halen : w₀.length < (c :: (p' ++ w)).length := by
          simp only [List.length_cons, List.length_append]
          omega
        have htk : (c :: (p' ++ w)).take w₀.length = w₀ := by
          have h1 := congrArg (List.take w₀.length) hseq'
          rw [List.take_append_eq_append_take,
            show w₀.length - (c :: (p' ++ w)).length = 0 from by omega,
            List.take_zero, List.append_nil,
            List.take_append_eq_append_take, Nat.sub_self, List.take_zero,
            List.append_nil, List.take_length] at h1
          exact h1
        have hdk : (c :: (p' ++ w)).drop w₀.length ++ r = r₀ := by
          have h1 := congrArg (List.drop w₀.length) hseq'
          rw [List.drop_append_eq_append_drop,
            show w₀.length - (c :: (p' ++ w)).length = 0 from by omega,
            List.drop_zero,
            List.drop_append_eq_append_drop, Nat.sub_self, List.drop_zero,
            List.drop_length, List.nil_append] at h1
          exact h1
        obtain ⟨m, ms, hmid⟩ : ∃ m ms, (c :: (p' ++ w)).drop w₀.length = m :: ms := by
          cases hx : (c :: (p' ++ w)).drop w₀.length with
          | nil =>
            have := congrArg List.length hx
            simp only [List.length_drop, List.length_nil] at this
            omega
          | cons m ms => exact ⟨m, ms, rfl⟩
        have hadec : (c :: (p' ++ w)) = w₀ ++ (m :: ms) := by
          conv_lhs => rw [← List.take_append_drop w₀.length (c :: (p' ++ w))]
          rw [htk, hmid]
        have hr₀ : r₀ = m :: (ms ++ r) := by
          rw [← hdk, hmid]
          rfl
        have hmw : isWordChar m = true := by
          rw [hr₀] at hhbf'
          simp only [headBoundary] at hhbf'
          simpa using hhbf'
        have hE₂ : eatCI kw (c :: (p' ++ w ++ r₂)) = some (w₀, m :: (ms ++ r₂)) := by
          have h1 : c :: (p' ++ w ++ r₂) = w₀ ++ ((m :: ms) ++ r₂) := by
            rw [show c :: (p' ++ w ++ r₂) = (c :: (p' ++ w)) ++ r₂ from by simp, hadec]
            simp
          rw [h1]
          have := eatCI_complete hf₀ ((m :: ms) ++ r₂)
          simpa using this
        have hhb₂ : headBoundary (m :: (ms ++ r₂)) = false := by
          simp [headBoundary, hmw]
        cases hrec : splitWordCI kw (some c) (p' ++ w ++ r) with
        | none => rw [hrec] at h'; exact absurd h' (by simp)
        | some tr =>
          obtain ⟨p'', w'', r''⟩ := tr
          rw [hrec] at h'
          simp only [Option.some.injEq, Prod.mk.injEq] at h'
          obtain ⟨hp', rfl, rfl⟩ := h'
          have hp'' : p'' = p' := by simpa using hp'
          subst hp''
          have hrec₂ := @ih (some c) hrec
          simp only [hpb, if_true, hE₂, hhb₂, Bool.false_eq_true, if_false, hrec₂]
    · next heat =>
      by_cases hpb : prevBoundary prev = true
      · rw [if_pos hpb] at heat
        have hnone₂ : eatCI kw (c :: (p' ++ w ++ r₂)) = none := by
          have h1 : eatCI kw ((c :: (p' ++ w)) ++ r) = none := by
            rw [show (c :: (p' ++ w)) ++ r = c :: (p' ++ w ++ r) from by simp]
            exact heat
          have h2 := @eatCI_none_transfer kw (c :: (p' ++ w)) r r₂
            (by simp only [List.length_cons, List.length_append]; omega) h1
          rw [show (c :: (p' ++ w)) ++ r₂ = c :: (p' ++ w ++ r₂) from by simp] at h2
          exact h2
        cases hrec : splitWordCI kw (some c) (p' ++ w ++ r) with
        | none => rw [hrec] at h'; exact absurd h' (by simp)
        | some tr =>
          obtain ⟨p'', w'', r''⟩ := tr
          rw [hrec] at h'
          simp only [Option.some.injEq, Prod.mk.injEq] at h'
          obtain ⟨hp', rfl, rfl⟩ := h'
          have hp'' : p'' = p' := by simpa using hp'
          subst hp''
          have hrec₂ := @ih (some c) hrec
          simp only [hpb, if_true, hnone₂, hrec₂]
      · have hpbf : prevBoundary prev = false := by
          cases hx : prevBoundary prev with
          | false => rfl
          | true => exact absurd hx hpb
        cases hrec : splitWordCI kw (some c) (p' ++ w ++ r) with
        | none => rw [hrec] at h'; exact absurd h' (by simp)
        | some tr =>
          obtain ⟨p'', w'', r''⟩ := tr
          rw [hrec] at h'
          simp only [Option.some.injEq, Prod.mk.injEq] at h'
          obtain ⟨hp', rfl, rfl⟩ := h'
          have hp'' : p'' = p' := by simpa using hp'
          subst hp''
          have hrec₂ := @ih (some c) hrec
          simp only [hpbf, Bool.false_eq_true, if_false, hrec₂]

theorem scan_headBoundary {c rest : List Char} (h : headBoundary (c ++ rest) = true) :
    headBoundary (pySubAll matchProd c ++ rest) = true := by
  cases c with
  | nil => simpa using h
  | cons x xs =>
    cases hm : matchProd (x :: xs) with
    | some pr =>
      obtain ⟨r, rest'⟩ := pr
      obtain ⟨M, g, hs, hMs, hrr⟩ := matchProd_sound hm
      rw [pySubAll_match matchProd_consuming hm, hrr, canon_decomp]
      rw [show "[Product] LIKE ".toList = '[' :: "Product] LIKE ".toList from rfl]
      simp only [List.cons_append, headBoundary]
      decide
    | none =>
      rw [pySubAll_cons_none hm]
      simpa [headBoundary] using h

theorem scan_last : ∀ (N : Nat) (s : List Char), s.length ≤ N → ∀ {c₀ : Char},
    s.getLast? = some c₀ → isWordChar c₀ = false →
    ∃ d, (pySubAll matchProd s).getLast? = some d ∧ isWordChar d = false := by
  intro N
  induction N with
  | zero =>
    intro s hs c₀ hl _
    have : s = [] := List.eq_nil_of_length_eq_zero (Nat.le_zero.mp hs)
    subst this
    simp at hl
  | succ N ih =>
    intro s hs c₀ hl hw
    cases s with
    | nil => simp at hl
    | cons x xs =>
      cases hm : matchProd (x :: xs) with
      | some pr =>
        obtain ⟨r, rest'⟩ := pr
        obtain ⟨M, g, hseq, hMs, hrr⟩ := matchProd_sound hm
        rw [pySubAll_match matchProd_consuming hm, hrr]
        by_cases hres : rest' = []
        · refine ⟨'\'', ?_, by decide⟩
          rw [hres, pySubAll_nil, List.append_nil, canon_decomp2,
            getLast?_append_right (by simp)]
          rfl
        · have hrlen : rest'.length ≤ N := by
            have := matchProd_consuming _ _ _ hm
            simp only [List.length_cons] at this hs
            omega
          have hrl : rest'.getLast? = some c₀ := by
            rw [hseq, getLast?_append_right hres] at hl
            exact hl
          obtain ⟨d, hd1, hd2⟩ := ih rest' hrlen hrl hw
          refine ⟨d, ?_, hd2⟩
          rw [getLast?_append_right, hd1]
          intro hx
          rw [hx] at hd1
          simp at hd1
      | none =>
        rw [pySubAll_cons_none hm]
        by_cases hxs : xs = []
        · subst hxs
          rw [pySubAll_nil]
          exact ⟨c₀, hl, hw⟩
        · have hlen2 : xs.length ≤ N := by
            simp only [List.length_cons] at hs
            omega
          have hxl : xs.getLast? = some c₀ := by
            rw [show x :: xs = [x] ++ xs from rfl,
              getLast?_append_right hxs] at hl
            exact hl
          obtain ⟨d, hd1, hd2⟩ := ih xs hlen2 hxl hw
          refine ⟨d, ?_, hd2⟩
          rw [show x :: pySubAll matchProd xs = [x] ++ pySubAll matchProd xs from rfl,
            getLast?_append_right, hd1]
          intro hx
          rw [hx] at hd1
          simp at hd1

theorem splitWordCI_exists_le {kw : List Char} (hkw : kw ≠ []) {prev : Option Char}
    {a wk r₂ : List Char}
    (hpb : prevBoundary (lastOr prev a) = true)
    (he : eatCI kw (wk ++ r₂) = some (wk, r₂))
    (hhb : headBoundary r₂ = true) :
    ∃ p w r, splitWordCI kw prev (a ++ (wk ++ r₂)) = some (p, w, r) ∧
      p.length ≤ a.length := by
  induction a generalizing prev with
  | nil =>
    simp only [List.nil_append]
    have hf := (eatCI_sound he).1
    have hwlen : kw.length = wk.length := forall2_length hf
    obtain ⟨c0, w0, rfl⟩ : ∃ c0 w0, wk = c0 :: w0 := by
      cases wk with
      | nil =>
        exfalso
        apply hkw
        apply List.eq_nil_of_length_eq_zero
        simpa using hwlen
      | cons c0 w0 => exact ⟨c0, w0, rfl⟩
    have hpb' : prevBoundary prev = true := by simpa [lastOr] using hpb
    have hE : eatCI kw (c0 :: (w0 ++ r₂)) = some (c0 :: w0, r₂) := by
      simpa using he
    refine ⟨[], c0 :: w0, r₂, ?_, by simp⟩
    simp only [List.cons_append, List.append_eq, splitWordCI, hpb', if_true, hE, hhb]
  | cons c as ih =>
    rw [show (c :: as) ++ (wk ++ r₂) = c :: (as ++ (wk ++ r₂)) from rfl]
    have hpb2 : prevBoundary (lastOr (some c) as) = true := by
      rwa [lastOr_cons] at hpb
    obtain ⟨p, w, r, hsp, hle⟩ := @ih (some c) hpb2
    by_cases hpv : prevBoundary prev = true
    · cases hE : eatCI kw (c :: (as ++ (wk ++ r₂))) with
      | none =>
        refine ⟨c :: p, w, r, ?_, by simpa using Nat.succ_le_succ hle⟩
        simp only [splitWordCI, List.append_eq, hpv, if_true, hE, hsp]
      | some pr =>
        obtain ⟨w₀, r₀⟩ := pr
        cases hhb₀ : headBoundary r₀ with
        | true =>
          refine ⟨[], w₀, r₀, ?_, by simp⟩
          simp only [splitWordCI, List.append_eq, hpv, if_true, hE, hhb₀]
        | false =>
          refine ⟨c :: p, w, r, ?_, by simpa using Nat.succ_le_succ hle⟩
          simp only [splitWordCI, List.append_eq, hpv, if_true, hE, hhb₀, Bool.false_eq_true, if_false, hsp]
    · have hpvf : prevBoundary prev = false := by
        cases hx : prevBoundary prev with
        | false => rfl
        | true => exact absurd hx hpv
      refine ⟨c :: p, w, r, ?_, by simpa using Nat.succ_le_succ hle⟩
      simp only [splitWordCI, List.append_eq, hpvf, Bool.false_eq_true, if_false, hsp]

/-! ## C9: the stop position of the second pass stays inside the rewritten span -/

theorem dollarPos_le_length (s : List Char) : dollarPos s ≤ s.length := by
  unfold dollarPos
  split <;> omega

theorem termStop_eq (prev : Option Char) (s : List Char) :
    termStop prev s =
      min (min ((firstWordPos groupByKw prev s).getD (dollarPos s))
               ((firstWordPos orderByKw prev s).getD (dollarPos s)))
          (min ((firstWordPos havingKw prev s).getD (dollarPos s)) (dollarPos s)) := by
  simp only [termStop]

theorem termStop_le_d (prev : Option Char) (s : List Char) :
    termStop prev s ≤ dollarPos s := by
  rw [termStop_eq]
  exact le_trans (Nat.min_le_right _ _) (Nat.min_le_right _ _)

theorem termStop_le_length (prev : Option Char) (s : List Char) :
    termStop prev s ≤ s.length :=
  le_trans (termStop_le_d _ _) (dollarPos_le_length s)

theorem termStop_le_gb {prev : Option Char} {s : List Char} {m : Nat}
    (h : firstWordPos groupByKw prev s = some m) : termStop prev s ≤ m := by
  rw [termStop_eq]
  refine le_trans (Nat.min_le_left _ _) (le_trans (Nat.min_le_left _ _) ?_)
  rw [h]
  rfl

theorem termStop_le_ob {prev : Option Char} {s : List Char} {m : Nat}
    (h : firstWordPos orderByKw prev s = some m) : termStop prev s ≤ m := by
  rw [termStop_eq]
  refine le_trans (Nat.min_le_left _ _) (le_trans (Nat.min_le_right _ _) ?_)
  rw [h]
  rfl

theorem termStop_le_hav {prev : Option Char} {s : List Char} {m : Nat}
    (h : firstWordPos havingKw prev s = some m) : termStop prev s ≤ m := by
  rw [termStop_eq]
  refine le_trans (Nat.min_le_right _ _) (le_trans (Nat.min_le_left _ _) ?_)
  rw [h]
  rfl

theorem min4_lt {a b c d : Nat} (h : min (min a b) (min c d) < d) :
    min (min a b) (min c d) = a ∨ min (min a b) (min c d) = b ∨
      min (min a b) (min c d) = c := by
  rcases min_choice (min a b) (min c d) with h4 | h4 <;> rw [h4] at h ⊢
  · rcases min_choice a b with h5 | h5 <;> rw [h5] <;> simp
  · rcases min_choice c d with h5 | h5 <;> rw [h5] at h ⊢
    · simp
    · omega

theorem termStop_achieved {prev : Option Char} {s : List Char}
    (h : termStop prev s < dollarPos s) :
    firstWordPos groupByKw prev s = some (termStop prev s) ∨
    firstWordPos orderByKw prev s = some (termStop prev s) ∨
    firstWordPos havingKw prev s = some (termStop prev s) := by
  rw [termStop_eq] at h
  have h4 := min4_lt h
  rw [← termStop_eq] at h4
  rcases h4 with h4 | h4 | h4
  · cases hg : firstWordPos groupByKw prev s with
    | none =>
      rw [hg] at h4
      simp only [Option.getD_none] at h4
      rw [← termStop_eq] at h
      rw [h4] at h
      exact absurd h (lt_irrefl _)
    | some m =>
      rw [hg] at h4
      simp only [Option.getD_some] at h4
      left
      rw [h4]
  · cases hg : firstWordPos orderByKw prev s with
    | none =>
      rw [hg] at h4
      simp only [Option.getD_none] at h4
      rw [← termStop_eq] at h
      rw [h4] at h
      exact absurd h (lt_irrefl _)
    | some m =>
      rw [hg] at h4
      simp only [Option.getD_some] at h4
      right
      left
      rw [h4]
  · cases hg : firstWordPos havingKw prev s with
    | none =>
      rw [hg] at h4
      simp only [Option.getD_none] at h4
      rw [← termStop_eq] at h
      rw [h4] at h
      exact absurd h (lt_irrefl _)
    | some m =>
      rw [hg] at h4
      simp only [Option.getD_some] at h4
      right
      right
      rw [h4]

theorem termStop_bound (prev : Option Char) (post : List Char) :
    termStop prev (pySubAll matchProd (post.take (termStop prev post)) ++
      post.drop (termStop prev post)) ≤
    (pySubAll matchProd (post.take (termStop prev post))).length := by
  by_cases hre : post.drop (termStop prev post) = []
  · rw [hre, List.append_nil]
    exact termStop_le_length prev _
  · have hstoplt : termStop prev post < post.length := by
      by_contra hx
      push_neg at hx
      exact hre (List.drop_eq_nil_of_le hx)
    have hstopled : termStop prev post ≤ dollarPos post := termStop_le_d prev post
    by_cases hsd : termStop prev post = dollarPos post
    · -- the stop was the `$` position: the text ends with a newline kept in `rest`
      have hnl : post.getLast? = some '\n' ∧ dollarPos post = post.length - 1 := by
        unfold dollarPos at hsd ⊢
        split at hsd
        · next hcond => exact ⟨hcond, by rw [if_pos hcond]⟩
        · omega
      obtain ⟨hnl1, hnl2⟩ := hnl
      have hrest1 : post.drop (termStop prev post) = ['\n'] := by
        have hlr : (post.drop (termStop prev post)).length = 1 := by
          rw [List.length_drop, hsd, hnl2]
          omega
        obtain ⟨y, hy⟩ : ∃ y, post.drop (termStop prev post) = [y] :=
          List.length_eq_one.mp hlr
        have hyl : post.getLast? = some y := by
          conv_lhs => rw [← List.take_append_drop (termStop prev post) post]
          rw [hy, getLast?_append_right (by simp)]
          rfl
        rw [hyl] at hnl1
        simp only [Option.some.injEq] at hnl1
        rw [hy, hnl1]
      have hXlast : (pySubAll matchProd (post.take (termStop prev post)) ++
          post.drop (termStop prev post)).getLast? = some '\n' := by
        rw [hrest1, getLast?_append_right (by simp)]
        rfl
      have hdX : dollarPos (pySubAll matchProd (post.take (termStop prev post)) ++
          post.drop (termStop prev post)) =
          (pySubAll matchProd (post.take (termStop prev post))).length := by
        unfold dollarPos
        rw [if_pos hXlast, List.length_append, hrest1]
        simp
      exact le_trans (termStop_le_d _ _) (le_of_eq hdX)
    · -- the stop was a word-bounded terminator keyword; it survives at the seam
      have hlt : termStop prev post < dollarPos post := by omega
      have hach := termStop_achieved hlt
      have hcommon : ∀ kw : List Char, kw ≠ [] →
          firstWordPos kw prev post = some (termStop prev post) →
          ∃ m, firstWordPos kw prev (pySubAll matchProd (post.take (termStop prev post)) ++
              post.drop (termStop prev post)) = some m ∧
            m ≤ (pySubAll matchProd (post.take (termStop prev post))).length := by
        intro kw hkw hfwp
        unfold firstWordPos at hfwp
        cases hsp : splitWordCI kw prev post with
        | none => rw [hsp] at hfwp; simp at hfwp
        | some tr =>
          obtain ⟨p, w', r'⟩ := tr
          rw [hsp] at hfwp
          simp only [Option.some.injEq] at hfwp
          have happ := splitWordCI_append hsp
          obtain ⟨heat, hhb, hpb⟩ := splitWordCI_some_props hsp
          have hcp : post.take (termStop prev post) = p := by
            rw [← hfwp, ← happ, List.append_assoc, List.take_left]
          have hcr : post.drop (termStop prev post) = w' ++ r' := by
            rw [← hfwp, ← happ, List.append_assoc, List.drop_left]
          have hpb2 : prevBoundary
              (lastOr prev (pySubAll matchProd (post.take (termStop prev post)))) = true := by
            by_cases hcnil : post.take (termStop prev post) = []
            · rw [hcnil, pySubAll_nil]
              rw [← hcp, hcnil] at hpb
              exact hpb
            · rw [← hcp] at hpb
              obtain ⟨e, he⟩ : ∃ e, (post.take (termStop prev post)).getLast? = some e := by
                cases hx : (post.take (termStop prev post)).getLast? with
                | none => exact absurd (List.getLast?_eq_none_iff.mp hx) hcnil
                | some e => exact ⟨e, rfl⟩
              have hle : lastOr prev (post.take (termStop prev post)) = some e := by
                unfold lastOr
                rw [he]
              rw [hle] at hpb
              have hpbe : isWordChar e = false := by
                simpa [prevBoundary] using hpb
              obtain ⟨dd, hdd1, hdd2⟩ :=
                scan_last (post.take (termStop prev post)).length _ (le_refl _) he hpbe
              have hld : lastOr prev (pySubAll matchProd (post.take (termStop prev post))) =
                  some dd := by
                unfold lastOr
                rw [hdd1]
              rw [hld]
              simpa [prevBoundary] using hdd2
          obtain ⟨π, ω, ρ, hsp2, hple⟩ := splitWordCI_exists_le hkw hpb2 heat hhb
          refine ⟨π.length, ?_, hple⟩
          unfold firstWordPos
          rw [← hcr] at hsp2
          rw [hsp2]
      rcases hach with hx | hx | hx
      · obtain ⟨m, hm1, hm2⟩ := hcommon groupByKw (by decide) hx
        exact le_trans (termStop_le_gb hm1) hm2
      · obtain ⟨m, hm1, hm2⟩ := hcommon orderByKw (by decide) hx
        exact le_trans (termStop_le_ob hm1) hm2
      · obtain ⟨m, hm1, hm2⟩ := hcommon havingKw (by decide) hx
        exact le_trans (termStop_le_hav hm1) hm2

set_option maxHeartbeats 1000000 in
/-- C9.  The SQL Normalizer is idempotent: re-applying
`_fix_product_column_in_sql` to its own output returns that output unchanged,
for every input SQL string. -/
theorem c9_fix_idempotent (q : String) :
    fix_product_column_in_sql (fix_product_column_in_sql q) = fix_product_column_in_sql q := by
  cases hsp : splitWordCI whereKw none q.toList with
  | none =>
    have h1 : fix_product_column_in_sql q = q := by
      unfold fix_product_column_in_sql
      rw [hsp]
    rw [h1, h1]
  | some tr =>
    obtain ⟨pre, w5, post⟩ := tr
    have happ := splitWordCI_append hsp
    obtain ⟨heat5, hhb5, hpb5⟩ := splitWordCI_some_props hsp
    have hfix1 : fix_product_column_in_sql q =
        String.mk (pre ++ w5 ++
          pySubAll matchProd (post.take (termStop w5.getLast? post)) ++
          post.drop (termStop w5.getLast? post)) := by
      simp only [fix_product_column_in_sql, hsp, innerProdSub]
    have hcrest : post.take (termStop w5.getLast? post) ++
        post.drop (termStop w5.getLast? post) = post := List.take_append_drop _ _
    have hhbX : headBoundary (pySubAll matchProd (post.take (termStop w5.getLast? post)) ++
        post.drop (termStop w5.getLast? post)) = true := by
      apply scan_headBoundary
      rw [hcrest]
      exact hhb5
    have hsp' : splitWordCI whereKw none (pre ++ w5 ++ post) = some (pre, w5, post) := by
      rw [happ]
      exact hsp
    have hsp2 : splitWordCI whereKw none (pre ++ w5 ++
        (pySubAll matchProd (post.take (termStop w5.getLast? post)) ++
          post.drop (termStop w5.getLast? post))) =
        some (pre, w5,
          pySubAll matchProd (post.take (termStop w5.getLast? post)) ++
          post.drop (termStop w5.getLast? post)) :=
      splitWordCI_replay (by decide) hsp' hhbX
    have htl : (String.mk (pre ++ w5 ++
        pySubAll matchProd (post.take (termStop w5.getLast? post)) ++
        post.drop (termStop w5.getLast? post))).toList =
        pre ++ w5 ++
          (pySubAll matchProd (post.take (termStop w5.getLast? post)) ++
            post.drop (termStop w5.getLast? post)) := by
      show pre ++ w5 ++
          pySubAll matchProd (post.take (termStop w5.getLast? post)) ++
          post.drop (termStop w5.getLast? post) =
        pre ++ w5 ++
          (pySubAll matchProd (post.take (termStop w5.getLast? post)) ++
            post.drop (termStop w5.getLast? post))
      simp [List.append_assoc]
    have hbound := termStop_bound w5.getLast? post
    rw [hfix1]
    simp only [fix_product_column_in_sql, htl, hsp2, innerProdSub]
    have ht1 : (pySubAll matchProd (post.take (termStop w5.getLast? post)) ++
        post.drop (termStop w5.getLast? post)).take
          (termStop w5.getLast?
            (pySubAll matchProd (post.take (termStop w5.getLast? post)) ++
              post.drop (termStop w5.getLast? post))) =
        (pySubAll matchProd (post.take (termStop w5.getLast? post))).take
          (termStop w5.getLast?
            (pySubAll matchProd (post.take (termStop w5.getLast? post)) ++
              post.drop (termStop w5.getLast? post))) := by
      rw [List.take_append_eq_append_take,
        show termStop w5.getLast?
            (pySubAll matchProd (post.take (termStop w5.getLast? post)) ++
              post.drop (termStop w5.getLast? post)) -
          (pySubAll matchProd (post.take (termStop w5.getLast? post))).length = 0
          from by omega]
      simp
    have ht2 : (pySubAll matchProd (post.take (termStop w5.getLast? post)) ++
        post.drop (termStop w5.getLast? post)).drop
          (termStop w5.getLast?
            (pySubAll matchProd (post.take (termStop w5.getLast? post)) ++
              post.drop (termStop w5.getLast? post))) =
        (pySubAll matchProd (post.take (termStop w5.getLast? post))).drop
          (termStop w5.getLast?
            (pySubAll matchProd (post.take (termStop w5.getLast? post)) ++
              post.drop (termStop w5.getLast? post))) ++
          post.drop (termStop w5.getLast? post) := by
      rw [List.drop_append_eq_append_drop,
        show termStop w5.getLast?
            (pySubAll matchProd (post.take (termStop w5.getLast? post)) ++
              post.drop (termStop w5.getLast? post)) -
          (pySubAll matchProd (post.take (termStop w5.getLast? post))).length = 0
          from by omega]
      simp
    rw [ht1, ht2]
    rw [scan_take_fixed (post.take (termStop w5.getLast? post)).length _ (le_refl _) _]
    congr 1
    simp only [List.append_assoc]
    rw [← List.append_assoc
      ((pySubAll matchProd (post.take (termStop w5.getLast? post))).take
        (termStop w5.getLast?
          (pySubAll matchProd (post.take (termStop w5.getLast? post)) ++
            post.drop (termStop w5.getLast? post))))
      ((pySubAll matchProd (post.take (termStop w5.getLast? post))).drop
        (termStop w5.getLast?
          (pySubAll matchProd (post.take (termStop w5.getLast? post)) ++
            post.drop (termStop w5.getLast? post))))
      (post.drop (termStop w5.getLast? post))]
    rw [List.take_append_drop]
